import Mathlib

/-!
Verification of the routing / JSON-repair core of the interview-helper
multi-agent application.

The development shallowly embeds the Python source:

* a model of Python's `json.loads` (strict mode) over a `Json` value type,
* the QnA agent's inline JSON-repair procedure (`src/agents/qna_agent.py`,
  lines 85-102),
* the extraction agent's `safe_extract_json` (`src/agents/extract_agent.py`),
  with the third-party `json_repair.repair_json` call modelled from the spec,
* the per-turn dispatch branch of `src/agentX.py` (lines 110-188),
* the `GeminiFlashLLM` model adapter (`src/agents/llm_gemini.py`),
* the `RouterAgent` registry construction (`src/agents/router_agent.py`),
* the method tables of the specialized agent classes.

Machine integers do not occur in the embedded fragment; Python strings are
modelled as Lean `String`/`List Char` (Unicode scalar values; the one
deviation, noted at `parseStringRest`, is that lone-surrogate `\u` escapes
are rejected rather than producing surrogate code units, which Lean `Char`
cannot hold).  Python exceptions are modelled by `Option`/`Except`.
-/

namespace AgentX

/-- Python `json` whitespace: exactly the four characters the `json` module
skips between tokens (`' '`, `'\t'`, `'\n'`, `'\r'`). -/
def isJsonWs (c : Char) : Bool :=
  c = ' ' || c = '\t' || c = '\n' || c = '\r'

/-- Python whitespace as recognized by `str.strip()` / `str.isspace()` and by
the regex class `\s` on `str` patterns: ASCII whitespace including the
vertical tab, form feed and the file/group/record/unit separators, plus the
Unicode space characters. -/
def isPyWs (c : Char) : Bool :=
  c = ' ' || c = '\t' || c = '\n' || c = '\r' ||
  c = '\x0b' || c = '\x0c' ||
  (0x1c ≤ c.val && c.val ≤ 0x1f) ||
  c.val == 0x85 || c.val == 0xa0 || c.val == 0x1680 ||
  (0x2000 ≤ c.val && c.val ≤ 0x200a) ||
  c.val == 0x2028 || c.val == 0x2029 || c.val == 0x202f ||
  c.val == 0x205f || c.val == 0x3000

/-- Values produced by Python's `json.loads`.  Python's `int`/`float`
distinction is retained by keeping the numeric literal's source text
(`num "1"` vs `num "1.0"`); all claims proved here compare parses of texts
through the same parser, so the representation choice is inert. -/
inductive Json where
  | null
  | bool (b : Bool)
  | num (lexeme : String)
  | str (s : String)
  | arr (items : List Json)
  | obj (members : List (String × Json))
deriving Repr, Inhabited

/-- Json value is an object (a Python `dict`). -/
def Json.isObj : Json → Bool
  | .obj _ => true
  | _ => false

/-- Optional Json value is an object. -/
def isObjOpt : Option Json → Bool
  | some (Json.obj _) => true
  | _ => false

/-- Value of a hexadecimal digit, as accepted in a JSON `\u` escape. -/
def hexVal (c : Char) : Option Nat :=
  let n := c.toNat
  if 48 ≤ n ∧ n ≤ 57 then
    some (n - 48)
  else if 97 ≤ n ∧ n ≤ 102 then
    some (n - 87)
  else if 65 ≤ n ∧ n ≤ 70 then
    some (n - 55)
  else
    none

/-- Single-character JSON string escapes (`json` accepts exactly these). -/
def escMap (c : Char) : Option Char :=
  if c = '"' then some '"'
  else if c = '\\' then some '\\'
  else if c = '/' then some '/'
  else if c = 'b' then some '\x08'
  else if c = 'f' then some '\x0c'
  else if c = 'n' then some '\n'
  else if c = 'r' then some '\r'
  else if c = 't' then some '\t'
  else none

/-- Decoder for the UTF-16 code units accumulated from a JSON string body:
surrogate pairs are combined; lone surrogates are rejected (deviation from
CPython, which lets them through into the `str`; Lean `Char` cannot hold a
surrogate code point). -/
def utf16Decode : List Nat → Option (List Char)
  | [] => some []
  | n :: m :: rest =>
    if 0xd800 ≤ n ∧ n ≤ 0xdbff then
      if 0xdc00 ≤ m ∧ m ≤ 0xdfff then
        (utf16Decode rest).map
          (fun cs => Char.ofNat (0x10000 + (n - 0xd800) * 0x400 + (m - 0xdc00)) :: cs)
      else none
    else if 0xdc00 ≤ n ∧ n ≤ 0xdfff then none
    else (utf16Decode (m :: rest)).map (fun cs => Char.ofNat n :: cs)
  | [n] =>
    if 0xd800 ≤ n ∧ n ≤ 0xdfff then none
    else some [Char.ofNat n]

/-- Body of a JSON string, after the opening quote: accumulates UTF-16 code
units (in reverse) until the closing quote, then decodes them.  Mirrors the
strict-mode `py_scanstring`: raw control characters below `0x20` are
rejected, `\u` escapes need four hex digits, other escapes come from
`escMap`.  The remainder carries its length bound so that callers can
recurse on it. -/
def parseStringRest : List Nat → (l : List Char) →
    Option (String × {r : List Char // r.length < l.length})
  | _, [] => none
  | acc, '"' :: rest =>
    (utf16Decode acc.reverse).map
      (fun cs => (⟨cs⟩, ⟨rest, by simp⟩))
  | acc, '\\' :: 'u' :: h1 :: h2 :: h3 :: h4 :: rest =>
    match hexVal h1, hexVal h2, hexVal h3, hexVal h4 with
    | some a, some b, some c, some d =>
      (parseStringRest ((((a * 16 + b) * 16 + c) * 16 + d) :: acc) rest).map
        (fun p => (p.1, ⟨p.2.1, by
          have hp := p.2.2
          simp only [List.length_cons]
          omega⟩))
    | _, _, _, _ => none
  | acc, '\\' :: e :: rest =>
    match escMap e with
    | some ch =>
      (parseStringRest (ch.toNat :: acc) rest).map
        (fun p => (p.1, ⟨p.2.1, by
          have hp := p.2.2
          simp only [List.length_cons]
          omega⟩))
    | none => none
  | _, ['\\'] => none
  | acc, c :: rest =>
    if c.val < 0x20 then none
    else
      (parseStringRest (c.toNat :: acc) rest).map
        (fun p => (p.1, ⟨p.2.1, by
          have hp := p.2.2
          simp only [List.length_cons]
          omega⟩))

/-- Fractional part `(\.\d+)?` of a JSON number: consumed only when a digit
follows the dot, exactly as in the `json` module's `NUMBER_RE`. -/
def numFrac (l : List Char) : List Char × {r : List Char // r.length ≤ l.length} :=
  match l with
  | '.' :: t =>
    if (t.takeWhile Char.isDigit).isEmpty then ([], ⟨'.' :: t, le_refl _⟩)
    else ('.' :: t.takeWhile Char.isDigit,
      ⟨t.dropWhile Char.isDigit, by
        have h := (List.dropWhile_suffix Char.isDigit (l := t)).length_le
        simp only [List.length_cons]
        omega⟩)
  | x => ([], ⟨x, le_refl _⟩)

/-- Exponent part `([eE][+-]?\d+)?` of a JSON number: consumed only when at
least one digit follows, exactly as in `NUMBER_RE`. -/
def numExp (l : List Char) : List Char × {r : List Char // r.length ≤ l.length} :=
  match l with
  | e :: s :: t2 =>
    if e = 'e' || e = 'E' then
      if s = '+' || s = '-' then
        if (t2.takeWhile Char.isDigit).isEmpty then ([], ⟨e :: s :: t2, le_refl _⟩)
        else (e :: s :: t2.takeWhile Char.isDigit,
          ⟨t2.dropWhile Char.isDigit, by
            have h := (List.dropWhile_suffix Char.isDigit (l := t2)).length_le
            simp only [List.length_cons]
            omega⟩)
      else
        if ((s :: t2).takeWhile Char.isDigit).isEmpty then ([], ⟨e :: s :: t2, le_refl _⟩)
        else (e :: (s :: t2).takeWhile Char.isDigit,
          ⟨(s :: t2).dropWhile Char.isDigit, by
            have h := (List.dropWhile_suffix Char.isDigit (l := (s :: t2))).length_le
            simp only [List.length_cons] at h ⊢
            omega⟩)
    else ([], ⟨e :: s :: t2, le_refl _⟩)
  | x => ([], ⟨x, le_refl _⟩)

/-- Integer part `(0|[1-9]\d*)` plus the optional fraction and exponent; `l`
starts at the first digit.  Returns the full lexeme (with `sign` prepended)
and the remainder. -/
def numTail (sign : List Char) (l : List Char) :
    Option (Json × {r : List Char // r.length < l.length}) :=
  match l with
  | c :: t =>
    if c = '0' then
      some (Json.num ⟨sign ++ '0' :: ((numFrac t).1 ++ (numExp (numFrac t).2.1).1)⟩,
        ⟨(numExp (numFrac t).2.1).2.1, by
          have h1 := (numFrac t).2.2
          have h2 := (numExp (numFrac t).2.1).2.2
          simp only [List.length_cons]
          omega⟩)
    else if c.isDigit then
      some (Json.num ⟨sign ++ c :: (t.takeWhile Char.isDigit ++
          (numFrac (t.dropWhile Char.isDigit)).1 ++
          (numExp (numFrac (t.dropWhile Char.isDigit)).2.1).1)⟩,
        ⟨(numExp (numFrac (t.dropWhile Char.isDigit)).2.1).2.1, by
          have h0 := (List.dropWhile_suffix Char.isDigit (l := t)).length_le
          have h1 := (numFrac (t.dropWhile Char.isDigit)).2.2
          have h2 := (numExp (numFrac (t.dropWhile Char.isDigit)).2.1).2.2
          simp only [List.length_cons]
          omega⟩)
    else none
  | [] => none

/-- The scanner's `l.startswith(tok)` test for the constant tokens:
`some r` strips the literal token `p` off the front of `l` and returns the
remainder (carrying its length bound); `none` means `l` does not start
with `p`. -/
def stripPrefixChars : (p : List Char) → (l : List Char) →
    Option {r : List Char // r.length + p.length ≤ l.length}
  | [], l => some ⟨l, by simp⟩
  | _ :: _, [] => none
  | p :: ps, c :: cs =>
    if p = c then
      (stripPrefixChars ps cs).map (fun r => ⟨r.1, by
        have hr := r.2
        simp only [List.length_cons]
        omega⟩)
    else none

/-- Non-recursive JSON values: the literals `null`/`true`/`false`, the
non-standard constants `NaN`/`Infinity`/`-Infinity` that `json.loads`
accepts by default, and numbers.  Token tests happen in the match order of
the scanner; the token heads are pairwise incompatible, so the order is
inert. -/
def parseAtom (l : List Char) :
    Option (Json × {r : List Char // r.length < l.length}) :=
  match stripPrefixChars ['n', 'u', 'l', 'l'] l with
  | some r => some (Json.null, ⟨r.1, by
      have hr := r.2
      simp only [List.length_cons, List.length_nil] at hr
      omega⟩)
  | none =>
  match stripPrefixChars ['t', 'r', 'u', 'e'] l with
  | some r => some (Json.bool true, ⟨r.1, by
      have hr := r.2
      simp only [List.length_cons, List.length_nil] at hr
      omega⟩)
  | none =>
  match stripPrefixChars ['f', 'a', 'l', 's', 'e'] l with
  | some r => some (Json.bool false, ⟨r.1, by
      have hr := r.2
      simp only [List.length_cons, List.length_nil] at hr
      omega⟩)
  | none =>
  match stripPrefixChars ['N', 'a', 'N'] l with
  | some r => some (Json.num "NaN", ⟨r.1, by
      have hr := r.2
      simp only [List.length_cons, List.length_nil] at hr
      omega⟩)
  | none =>
  match stripPrefixChars ['I', 'n', 'f', 'i', 'n', 'i', 't', 'y'] l with
  | some r => some (Json.num "Infinity", ⟨r.1, by
      have hr := r.2
      simp only [List.length_cons, List.length_nil] at hr
      omega⟩)
  | none =>
  match stripPrefixChars ['-', 'I', 'n', 'f', 'i', 'n', 'i', 't', 'y'] l with
  | some r => some (Json.num "-Infinity", ⟨r.1, by
      have hr := r.2
      simp only [List.length_cons, List.length_nil] at hr
      omega⟩)
  | none =>
  match stripPrefixChars ['-'] l with
  | some r =>
    (numTail ['-'] r.1).map (fun p => (p.1, ⟨p.2.1, by
      have hp := p.2.2
      have hr := r.2
      simp only [List.length_cons, List.length_nil] at hr
      omega⟩))
  | none => numTail [] l

/-- Member insertion with Python `dict` semantics: a repeated key keeps its
original position and takes the latest value. -/
def objInsert (ms : List (String × Json)) (k : String) (v : Json) :
    List (String × Json) :=
  if ms.any (fun p => p.1 = k) then
    ms.map (fun p => if p.1 = k then (k, v) else p)
  else ms ++ [(k, v)]

/-- Head of the list is the given character (so the list is nonempty). -/
def headIs (c : Char) : List Char → Bool
  | x :: _ => x = c
  | [] => false

mutual

/-- One JSON value starting at the head of `l` (leading whitespace must have
been skipped by the caller, as in the `json` module's `scan_once`).  `n`
is a structural recursion bound with the invariant `l.length ≤ n`, so the
bound can never be exhausted on a reachable path; the remainder carries its
strict length bound, which maintains the invariant at every call. -/
def parseValue : (n : Nat) → (l : List Char) → l.length ≤ n →
    Option (Json × {r : List Char // r.length < l.length})
  | _, [], _ => none
  | 0, c :: rest, h => False.elim (by simp at h)
  | Nat.succ n, c :: rest, h =>
    if c = '{' then
      if headIs '}' (rest.dropWhile isJsonWs) then
        some (Json.obj [], ⟨(rest.dropWhile isJsonWs).tail, by
          have h2 := (List.dropWhile_suffix isJsonWs (l := rest)).length_le
          have h3 := List.length_tail (rest.dropWhile isJsonWs)
          simp only [List.length_cons]
          omega⟩)
      else
        (parsePairs n [] (rest.dropWhile isJsonWs) (by
            have h2 := (List.dropWhile_suffix isJsonWs (l := rest)).length_le
            simp only [List.length_cons] at h
            omega)).map (fun p => (p.1, ⟨p.2.1, by
          have hp := p.2.2
          have h2 := (List.dropWhile_suffix isJsonWs (l := rest)).length_le
          simp only [List.length_cons]
          omega⟩))
    else if c = '[' then
      if headIs ']' (rest.dropWhile isJsonWs) then
        some (Json.arr [], ⟨(rest.dropWhile isJsonWs).tail, by
          have h2 := (List.dropWhile_suffix isJsonWs (l := rest)).length_le
          have h3 := List.length_tail (rest.dropWhile isJsonWs)
          simp only [List.length_cons]
          omega⟩)
      else
        match parseValue n (rest.dropWhile isJsonWs) (by
            have h2 := (List.dropWhile_suffix isJsonWs (l := rest)).length_le
            simp only [List.length_cons] at h
            omega) with
        | none => none
        | some (v, r1) =>
          (parseElemsRest n [v] r1.1 (by
              have hp := r1.2
              have h2 := (List.dropWhile_suffix isJsonWs (l := rest)).length_le
              simp only [List.length_cons] at h
              omega)).map (fun p => (p.1, ⟨p.2.1, by
            have hp := p.2.2
            have hr := r1.2
            have h2 := (List.dropWhile_suffix isJsonWs (l := rest)).length_le
            simp only [List.length_cons]
            omega⟩))
    else if c = '"' then
      (parseStringRest [] rest).map (fun p => (Json.str p.1, ⟨p.2.1, by
        have hp := p.2.2
        simp only [List.length_cons]
        omega⟩))
    else
      parseAtom (c :: rest)

/-- Members of an object after `{` (or after a comma), at a key position: a
quoted key, a colon, a value, then either `,` and more members or `}`.  A
`}` straight after a comma is not accepted (`json.loads` rejects trailing
commas). -/
def parsePairs : (n : Nat) → List (String × Json) → (l : List Char) → l.length ≤ n →
    Option (Json × {r : List Char // r.length < l.length})
  | 0, _, _, _ => none
  | Nat.succ n, acc, l, h =>
    if hq : headIs '"' l then
      match parseStringRest [] l.tail with
      | none => none
      | some (k, r1) =>
        if hc : headIs ':' (r1.1.dropWhile isJsonWs) then
          match parseValue n ((r1.1.dropWhile isJsonWs).tail.dropWhile isJsonWs) (by
              have h6 := (List.dropWhile_suffix isJsonWs
                (l := (r1.1.dropWhile isJsonWs).tail)).length_le
              have h7 := List.length_tail (r1.1.dropWhile isJsonWs)
              have h8 := (List.dropWhile_suffix isJsonWs (l := r1.1)).length_le
              have h9 := r1.2
              have h10 := List.length_tail l
              have h11 : 0 < l.length :=
                List.length_pos.mpr (fun hnil => by simp [hnil, headIs] at hq)
              omega) with
          | none => none
          | some (v, r3) =>
            if hcomma : headIs ',' (r3.1.dropWhile isJsonWs) then
              (parsePairs n (objInsert acc k v)
                  ((r3.1.dropWhile isJsonWs).tail.dropWhile isJsonWs) (by
                    have h2 := (List.dropWhile_suffix isJsonWs
                      (l := (r3.1.dropWhile isJsonWs).tail)).length_le
                    have h3 := List.length_tail (r3.1.dropWhile isJsonWs)
                    have h4 := (List.dropWhile_suffix isJsonWs (l := r3.1)).length_le
                    have h5 := r3.2
                    have h6 := (List.dropWhile_suffix isJsonWs
                      (l := (r1.1.dropWhile isJsonWs).tail)).length_le
                    have h7 := List.length_tail (r1.1.dropWhile isJsonWs)
                    have h8 := (List.dropWhile_suffix isJsonWs (l := r1.1)).length_le
                    have h9 := r1.2
                    have h10 := List.length_tail l
                    have h11 : 0 < l.length :=
                      List.length_pos.mpr (fun hnil => by simp [hnil, headIs] at hq)
                    omega)).map
                (fun p => (p.1, ⟨p.2.1, by
                  have hp := p.2.2
                  have h2 := (List.dropWhile_suffix isJsonWs
                    (l := (r3.1.dropWhile isJsonWs).tail)).length_le
                  have h3 := List.length_tail (r3.1.dropWhile isJsonWs)
                  have h4 := (List.dropWhile_suffix isJsonWs (l := r3.1)).length_le
                  have h5 := r3.2
                  have h6 := (List.dropWhile_suffix isJsonWs
                    (l := (r1.1.dropWhile isJsonWs).tail)).length_le
                  have h7 := List.length_tail (r1.1.dropWhile isJsonWs)
                  have h8 := (List.dropWhile_suffix isJsonWs (l := r1.1)).length_le
                  have h9 := r1.2
                  have h10 := List.length_tail l
                  have h11 : 0 < l.length :=
                    List.length_pos.mpr (fun hnil => by simp [hnil, headIs] at hq)
                  omega⟩))
            else if hclose : headIs '}' (r3.1.dropWhile isJsonWs) then
              some (Json.obj (objInsert acc k v), ⟨(r3.1.dropWhile isJsonWs).tail, by
                have h3 := List.length_tail (r3.1.dropWhile isJsonWs)
                have h4 := (List.dropWhile_suffix isJsonWs (l := r3.1)).length_le
                have h5 := r3.2
                have h6 := (List.dropWhile_suffix isJsonWs
                  (l := (r1.1.dropWhile isJsonWs).tail)).length_le
                have h7 := List.length_tail (r1.1.dropWhile isJsonWs)
                have h8 := (List.dropWhile_suffix isJsonWs (l := r1.1)).length_le
                have h9 := r1.2
                have h10 := List.length_tail l
                have h11 : 0 < l.length :=
                  List.length_pos.mpr (fun hnil => by simp [hnil, headIs] at hq)
                omega⟩)
            else none
        else none
    else none

/-- Continuation of an array after a parsed element, at `l`: either `,` and
another element, or `]` closing the array.  Trailing commas are rejected
because a comma is always followed by a full element parse. -/
def parseElemsRest : (n : Nat) → List Json → (l : List Char) → l.length ≤ n →
    Option (Json × {r : List Char // r.length < l.length})
  | 0, _, _, _ => none
  | Nat.succ n, acc, l, h =>
    if hcomma : headIs ',' (l.dropWhile isJsonWs) then
      match parseValue n ((l.dropWhile isJsonWs).tail.dropWhile isJsonWs) (by
          have h2 := (List.dropWhile_suffix isJsonWs
            (l := (l.dropWhile isJsonWs).tail)).length_le
          have h3 := List.length_tail (l.dropWhile isJsonWs)
          have h4 := (List.dropWhile_suffix isJsonWs (l := l)).length_le
          have h11 : 0 < (l.dropWhile isJsonWs).length :=
            List.length_pos.mpr (fun hnil => by simp [hnil, headIs] at hcomma)
          omega) with
      | none => none
      | some (v, r1) =>
        (parseElemsRest n (acc ++ [v]) r1.1 (by
            have hp := r1.2
            have h2 := (List.dropWhile_suffix isJsonWs
              (l := (l.dropWhile isJsonWs).tail)).length_le
            have h3 := List.length_tail (l.dropWhile isJsonWs)
            have h4 := (List.dropWhile_suffix isJsonWs (l := l)).length_le
            omega)).map (fun p => (p.1, ⟨p.2.1, by
          have hp := p.2.2
          have hr := r1.2
          have h2 := (List.dropWhile_suffix isJsonWs
            (l := (l.dropWhile isJsonWs).tail)).length_le
          have h3 := List.length_tail (l.dropWhile isJsonWs)
          have h4 := (List.dropWhile_suffix isJsonWs (l := l)).length_le
          have h11 : 0 < (l.dropWhile isJsonWs).length :=
            List.length_pos.mpr (fun hnil => by simp [hnil, headIs] at hcomma)
          omega⟩))
    else if hclose : headIs ']' (l.dropWhile isJsonWs) then
      some (Json.arr acc, ⟨(l.dropWhile isJsonWs).tail, by
        have h3 := List.length_tail (l.dropWhile isJsonWs)
        have h4 := (List.dropWhile_suffix isJsonWs (l := l)).length_le
        have h11 : 0 < (l.dropWhile isJsonWs).length :=
          List.length_pos.mpr (fun hnil => by simp [hnil, headIs] at hclose)
        omega⟩)
    else none

end

/-- Remainder-untrimmed wrapper: the parse of one value at `l`, with the
plain remainder list (the structural bound instantiated at `l.length`). -/
def parseValueW (l : List Char) : Option (Json × List Char) :=
  (parseValue l.length l (le_refl _)).map (fun p => (p.1, p.2.1))

/-- Python `json.loads` on a character list: skip leading JSON whitespace,
scan one value, require only JSON whitespace after it; `none` models the
`JSONDecodeError` exception. -/
def loadsList (l : List Char) : Option Json :=
  match parseValueW (l.dropWhile isJsonWs) with
  | some (v, r) => if r.all isJsonWs then some v else none
  | none => none

/-- Python `json.loads` on a string. -/
def json_loads (s : String) : Option Json :=
  loadsList s.toList

/-! ## QnA agent JSON repair (`src/agents/qna_agent.py`, lines 85-102) -/

/-- Python `re.sub(r"```(?:json)?", "", raw)`: left-to-right, non-overlapping
removal of every fence marker, greedily taking an immediately following
`json`. -/
def subFences : List Char → List Char
  | '`' :: '`' :: '`' :: 'j' :: 's' :: 'o' :: 'n' :: rest => subFences rest
  | '`' :: '`' :: '`' :: rest => subFences rest
  | c :: rest => c :: subFences rest
  | [] => []

/-- Python `.replace("```", "")`: left-to-right, non-overlapping removal of
every triple-backtick. -/
def replaceTicks : List Char → List Char
  | '`' :: '`' :: '`' :: rest => replaceTicks rest
  | c :: rest => c :: replaceTicks rest
  | [] => []

/-- Python `str.strip()` on a character list. -/
def pyStripList (l : List Char) : List Char :=
  ((l.dropWhile isPyWs).reverse.dropWhile isPyWs).reverse

/-- Python `str.strip()`. -/
def pyStrip (s : String) : String :=
  ⟨pyStripList s.toList⟩

/-- Cleaning step of `QnAAgent.execute` (line 87):
`re.sub(r"```(?:json)?", "", raw).replace("```", "").strip()`. -/
def qnaClean (raw : String) : String :=
  ⟨pyStripList (replaceTicks (subFences raw.toList))⟩

/-- Fallback mapping built in the `except` branch of `QnAAgent.execute`
(lines 93-100); note that it nests `cleaned`, not the raw model output. -/
def qnaSentinel (cleaned : String) : Json :=
  Json.obj [("General", Json.obj
    [("Level 1", Json.arr []),
     ("Level 2", Json.arr []),
     ("Level 3", Json.arr [Json.str cleaned])])]

/-- JSON-repair tail of `QnAAgent.execute` (lines 87-102): clean the raw
model output, `json.loads` it, require a `dict`, and fall back to the
sentinel on any failure (the `except Exception` arm). -/
def qnaRepair (raw : String) : Json :=
  match json_loads (qnaClean raw) with
  | some (Json.obj ms) => Json.obj ms
  | _ => qnaSentinel (qnaClean raw)

/-! ## Extraction agent (`src/agents/extract_agent.py`, lines 27-57) -/

/-- List starts with a triple backtick. -/
def startsWithTicks : List Char → Bool
  | '`' :: '`' :: '`' :: _ => true
  | _ => false

/-- Text contains the code-fence marker ``` somewhere. -/
def hasTriple : List Char → Bool
  | [] => false
  | c :: rest => startsWithTicks (c :: rest) || hasTriple rest

/-- Greedy search (from the right) for the closing `\}` of the capture group
in `re.search(r"```(?:json)?\s*(\{.*\})\s*```", raw, re.DOTALL)`: `revBody`
is the not-yet-scanned part of the braced body, reversed; `after` holds the
characters to its right in original order.  A position closes the group when
it holds `\}` and the text after it is whitespace followed by a fence. -/
def scanRevClose : List Char → List Char → Option (List Char)
  | _, [] => none
  | after, c :: restRev =>
    if c = '}' && startsWithTicks (after.dropWhile isPyWs) then
      some ('{' :: (restRev.reverse ++ ['}']))
    else scanRevClose (c :: after) restRev

/-- Attempt of the fenced-block pattern at the current position: a fence,
optionally `json` (greedy), `\s*`, then the brace-delimited capture with a
greedy `.*` (DOTALL) resolved by `scanRevClose`. -/
def matchFenceAt (l : List Char) : Option (List Char) :=
  match l with
  | '`' :: '`' :: '`' :: rest =>
    let rest2 := match rest with
      | 'j' :: 's' :: 'o' :: 'n' :: r => r
      | _ => rest
    match rest2.dropWhile isPyWs with
    | '{' :: body => scanRevClose [] body.reverse
    | _ => none
  | _ => none

/-- Python `re.search` for the fenced-block pattern: leftmost match wins;
returns capture group 1. -/
def searchFenced : List Char → Option (List Char)
  | [] => none
  | c :: rest =>
    match matchFenceAt (c :: rest) with
    | some g => some g
    | none => searchFenced rest

/-- Detector used by the comma-removal pass: the next non-whitespace
character closes an object or an array. -/
def closerNext (l : List Char) : Bool :=
  match l.dropWhile isPyWs with
  | '}' :: _ => true
  | ']' :: _ => true
  | _ => false

/-- Trailing-comma removal outside string literals (first half of the
`repair_json` model below). -/
def dropCommas : Bool → List Char → List Char
  | _, [] => []
  | true, '\\' :: e :: rest => '\\' :: e :: dropCommas true rest
  | true, '"' :: rest => '"' :: dropCommas false rest
  | true, c :: rest => c :: dropCommas true rest
  | false, '"' :: rest => '"' :: dropCommas true rest
  | false, ',' :: rest =>
    if closerNext rest then dropCommas false rest else ',' :: dropCommas false rest
  | false, c :: rest => c :: dropCommas false rest

/-- End-of-text state of a brace/quote scan: whether the text ends inside a
string literal, and the stack of still-expected closing brackets. -/
def scanState : Bool → List Char → List Char → Bool × List Char
  | inStr, stack, [] => (inStr, stack)
  | true, stack, '\\' :: _ :: rest => scanState true stack rest
  | true, stack, '"' :: rest => scanState false stack rest
  | true, stack, _ :: rest => scanState true stack rest
  | false, stack, '"' :: rest => scanState true stack rest
  | false, stack, '{' :: rest => scanState false ('}' :: stack) rest
  | false, stack, '[' :: rest => scanState false (']' :: stack) rest
  | false, stack, '}' :: rest =>
    scanState false (match stack with | '}' :: s => s | _ => stack) rest
  | false, stack, ']' :: rest =>
    scanState false (match stack with | ']' :: s => s | _ => stack) rest
  | false, stack, _ :: rest => scanState false stack rest

/-- Modelled from the spec: the third-party `json_repair.repair_json` called
by `ExtractionAgent.safe_extract_json` is not part of this repository; per
the spec it applies "a best-effort structural repair (balancing
braces/quotes, removing trailing commas)".  The model removes commas whose
next non-whitespace character is a closing brace/bracket (outside string
literals), closes an unterminated string literal, and appends closers for
the still-open braces/brackets. -/
def repair_json (l : List Char) : List Char :=
  let (inStr, stack) := scanState false [] l
  dropCommas false (l ++ (if inStr then ['"'] else []) ++ stack)

/-- Embedding of `ExtractionAgent.safe_extract_json` on string input: strip,
locate a fenced `\{...\}` block (else use the whole text), library-repair
it, `json.loads` the result; every exception path returns `\{\}` (lines
51-57). -/
def safe_extract_json (raw : String) : Json :=
  let t := pyStripList raw.toList
  let cleaned := match searchFenced t with
    | some g => pyStripList g
    | none => t
  match loadsList (repair_json cleaned) with
  | some v => v
  | none => Json.obj []

/-! ## Model adapter (`src/agents/llm_gemini.py`)

The underlying `genai` model call is the external collaborator; it is
passed in as `generate : String → Except String String`, where `.error e`
models `model.generate_content(prompt)` (or the `.text` accessor) raising an
exception whose string form is `e`, and `.ok t` models a successful call
returning text `t`. -/

/-- Shape of `agno.models.response.ModelResponse` as used by the adapter: a
`content` string. -/
structure ModelResponse where
  content : String
deriving Repr, DecidableEq

/-- Embedding of `GeminiFlashLLM._call` (lines 25-36): return the model
text, or convert any exception into an error-marker string. -/
def GeminiFlashLLM_call (generate : String → Except String String)
    (prompt : String) : String :=
  match generate prompt with
  | .ok t => t
  | .error e => "An error occurred: " ++ e

/-- One element of a `messages` list handed to `GeminiFlashLLM.response`:
either an object exposing a `content` attribute, a `dict` (whose `content`
key may be absent, in which case `str(d)` is used), or any other value
(whose `str(...)` form is used). -/
inductive ChatMsg where
  | withContent (content : String)
  | dictMsg (content? : Option String) (reprStr : String)
  | other (reprStr : String)

/-- Content extracted from one message (lines 98-103). -/
def msgText : ChatMsg → String
  | .withContent c => c
  | .dictMsg (some c) _ => c
  | .dictMsg none r => r
  | .other r => r

/-- Argument shape of `GeminiFlashLLM.response`: a single string, an ordered
list of turns, or any other Python value (whose `str(...)` form is used). -/
inductive PyMessages where
  | ofString (s : String)
  | ofList (l : List ChatMsg)
  | otherVal (reprStr : String)

/-- Python truthiness test `not messages` (line 88): empty string and empty
list are falsy; other objects default to truthy. -/
def messagesEmpty : PyMessages → Bool
  | .ofString s => s.isEmpty
  | .ofList l => l.isEmpty
  | .otherVal _ => false

/-- Model input chosen by `GeminiFlashLLM.response` (lines 93-105): the
string itself, or the last list element's content, or `str(messages)`. -/
def extractContent : PyMessages → String
  | .ofString s => s
  | .ofList l =>
    match l.getLast? with
    | some m => msgText m
    | none => ""
  | .otherVal r => r

/-- Embedding of `GeminiFlashLLM.response` (lines 84-117): short-circuit on
falsy `messages`, otherwise call the model on the extracted content and wrap
the text (empty on falsy text) or the error marker in a `ModelResponse`. -/
def GeminiFlashLLM_response (generate : String → Except String String)
    (messages : PyMessages) : ModelResponse :=
  if messagesEmpty messages then ⟨""⟩
  else
    match generate (extractContent messages) with
    | .ok t => ⟨if t.isEmpty then "" else t⟩
    | .error e => ⟨"Error generating response: " ++ e⟩

/-! ## Per-turn dispatch (`src/agentX.py`, lines 110-188) -/

/-- Result of invoking one of the dispatch tools: the recruiter and
knowledge tools return strings, the QnA tool returns a dict. -/
inductive ToolResult where
  | text (s : String)
  | structured (j : Json)

/-- External collaborators of one dispatch turn: the three member agents'
`execute` operations (as the call sites invoke them), the resume reviewer's
`execute` call, the tool-calling decision loop `router.run` (given the
registry's tool names, the formatted instruction block and the query, it
returns the final `.content`), and the plain completion `llm._call`. -/
structure Externals where
  recruiterExecute : String → String → String → String
  knowledgeExecute : String → String → String → String
  qnaExecute : String → String → Json
  reviewerExecute : String → String → String
  routerRun : List String → String → String → String
  llmCall : String → String

/-- String value of `CHATBOT_PROMPT` (`src/agents/prompt.py`, lines 7-9). -/
def CHATBOT_PROMPT : String :=
  "\nYou are a friendly and professional career consultant. Your purpose is to provide general advice, answer questions about job hunting, career development, and professional growth in a helpful and encouraging manner. Respond to user queries politely and professionally.\n"

/-- Result of `PromptTemplate.from_template(TOOLS_PROMPT).format(...)`
(`src/agentX.py`, lines 161-164) with the template of `src/agents/prompt.py`
lines 89-95: the template text with the three placeholders substituted. -/
def toolsPromptFormat (resumeContent jdContent userInput : String) : String :=
  "Base on the use message and select appropriate tool and its parameters then call it to get the resonses.\n    Use the following parameters:\n    resume_content: "
    ++ resumeContent ++ "\n    jd_content: " ++ jdContent
    ++ "\n    user_input: " ++ userInput ++ "\n    \n"

/-- Tool registry built in the both-documents branch (lines 128-159): three
zero-argument closures capturing the turn's documents and user input, named
by the decorated functions. -/
def toolRegistry (ext : Externals) (resumeContent jdContent userInput : String) :
    List (String × (Unit → ToolResult)) :=
  [("recruiter_agent_tool", fun _ =>
      .text (ext.recruiterExecute resumeContent jdContent userInput)),
   ("knowledge_agent_tool", fun _ =>
      .text (ext.knowledgeExecute resumeContent jdContent userInput)),
   ("qna_agent_tool", fun _ =>
      .structured (ext.qnaExecute resumeContent jdContent))]

/-- Python truthiness of an upload slot's `content` field: `None` and the
empty string are falsy. -/
def truthy : Option String → Bool
  | none => false
  | some s => !s.isEmpty

/-- Which of the three dispatch branches ran, with the data each branch
feeds to its model call and the answer it produces. -/
inductive DispatchOutcome where
  | toolRouting (toolNames : List String) (instructions : String) (answer : String)
  | directReview (resumeContent userRequest : String) (answer : String)
  | chatbot (fullQuery : String) (answer : String)
deriving Repr

/-- Branch tag of a `DispatchOutcome`. -/
inductive PathKind where
  | tools
  | review
  | chat
deriving Repr, DecidableEq

/-- Tag of the branch an outcome came from. -/
def pathKind : DispatchOutcome → PathKind
  | .toolRouting _ _ _ => .tools
  | .directReview _ _ _ => .review
  | .chatbot _ _ => .chat

/-- Embedding of the dispatch branch of the chat handler (`src/agentX.py`,
lines 110-188): `if resume_content and jd_content` build the tool registry
and run the decision loop; `elif resume_content` invoke the resume reviewer
directly; `else` answer through the chatbot prompt and `llm._call`. -/
def chatDispatch (ext : Externals) (resume jd : Option String)
    (userInput : String) : DispatchOutcome :=
  if truthy resume && truthy jd then
    let r := resume.getD ""
    let j := jd.getD ""
    let tools := toolRegistry ext r j userInput
    let instr := toolsPromptFormat r j userInput
    .toolRouting (tools.map Prod.fst) instr
      (ext.routerRun (tools.map Prod.fst) instr ("user input: " ++ userInput))
  else if truthy resume then
    .directReview (resume.getD "") userInput
      (ext.reviewerExecute (resume.getD "") userInput)
  else
    let fullQuery := CHATBOT_PROMPT ++ "\n\nUser's request: " ++ userInput
    .chatbot fullQuery (ext.llmCall fullQuery)

/-- Modelled from the spec's words (refinement target for the dispatch
claim, §4.4 decision policy): both documents present → registry of exactly
the three named zero-argument tools and a single decision-loop invocation
whose result is the answer; only the resume present → direct resume-review
invocation with the resume and user message; otherwise → the general
chatbot prompt through the plain completion call. -/
def spec_dispatch (ext : Externals) (resume jd : Option String)
    (userInput : String) : DispatchOutcome :=
  match truthy resume, truthy jd with
  | true, true =>
    let names := ["recruiter_agent_tool", "knowledge_agent_tool", "qna_agent_tool"]
    let instr := toolsPromptFormat (resume.getD "") (jd.getD "") userInput
    .toolRouting names instr
      (ext.routerRun names instr ("user input: " ++ userInput))
  | true, false =>
    .directReview (resume.getD "") userInput
      (ext.reviewerExecute (resume.getD "") userInput)
  | false, _ =>
    let fullQuery := CHATBOT_PROMPT ++ "\n\nUser's request: " ++ userInput
    .chatbot fullQuery (ext.llmCall fullQuery)

/-! ## Router agent registry construction (`src/agents/router_agent.py`) -/

/-- Name normalization `str(agent.name).replace(" ", "_").lower()` (lines
27 and 42): every space becomes an underscore, then ASCII letters are
lowercased (the agent names in this repository are ASCII; Python's `lower()`
also folds non-ASCII letters). -/
def routerNormalize (name : String) : String :=
  ⟨(name.toList.map (fun c => if c = ' ' then '_' else c)).map
    (fun c => if 'A' ≤ c && c ≤ 'Z' then Char.ofNat (c.toNat + 32) else c)⟩

/-- Python `dict` insertion: a repeated key keeps its position and takes the
latest value. -/
def dictInsert (m : List (String × String)) (k v : String) :
    List (String × String) :=
  if m.any (fun p => p.1 = k) then
    m.map (fun p => if p.1 = k then (k, v) else p)
  else m ++ [(k, v)]

/-- The `available_agents` dict comprehension (line 27), keyed by normalized
name; agents are identified by their name strings. -/
def availableAgents (agents : List String) : List (String × String) :=
  agents.foldl (fun m a => dictInsert m (routerNormalize a) a) []

/-- Embedding of `RouterAgent._create_tool_for_agent` (lines 41-71): the two
recognized normalized names yield fixed tool identifiers; anything else
raises `ValueError`. -/
def createToolForAgent (agentName : String) : Except String String :=
  let n := routerNormalize agentName
  if n = "recruiter_agent" then .ok "recruiter_agent_tool"
  else if n = "knowledge_agent" then .ok "knowledge_agent_tool"
  else .error ("Invalid agent name provided " ++ n ++ " for tool creation.")

/-- Tool list built by the comprehension
`[self._create_tool_for_agent(agent) for agent in agents]` (line 33):
left to right, the first raised `ValueError` propagates. -/
def buildTools : List String → Except String (List String)
  | [] => Except.ok []
  | a :: rest =>
    match createToolForAgent a with
    | .error e => .error e
    | .ok t =>
      match buildTools rest with
      | .error e => .error e
      | .ok ts => .ok (t :: ts)

/-- Embedding of the registry-building part of `RouterAgent.__init__`
(lines 21-40): the normalized-name dict and the tool list; an error from
any agent aborts construction. -/
def routerAgentInit (agents : List String) :
    Except String (List (String × String) × List String) :=
  match buildTools agents with
  | .ok tools => .ok (availableAgents agents, tools)
  | .error e => .error e

/-! ## Method tables of the specialized agent classes

Each list holds the public methods the class itself defines (`__init__`
aside); the `...CallMethod` constants are the attribute names the dispatcher
and the tool closures invoke on the instances. -/

/-- Methods defined by `ResumeReviewerAgent` (`src/agents/resume_reviewer.py`). -/
def resumeReviewerAgentMethods : List String := ["run_review"]

/-- Methods defined by `RecruiterAgent` (`src/agents/recruiter_agent.py`). -/
def recruiterAgentMethods : List String := ["run_evaluation"]

/-- Methods defined by `KnowledgeAgent` (`src/agents/knowledge_agent.py`). -/
def knowledgeAgentMethods : List String := ["execute"]

/-- Methods defined by `QnAAgent` (`src/agents/qna_agent.py`). -/
def qnaAgentMethods : List String := ["execute"]

/-- Attribute invoked on the resume reviewer in the resume-only branch
(`src/agentX.py`, line 179). -/
def reviewerCallMethod : String := "execute"

/-- Attribute invoked on the recruiter agent inside its tool closure
(`src/agentX.py`, line 138; likewise `src/agents/router_agent.py`, line 46). -/
def recruiterToolCallMethod : String := "execute"

/-- Attribute invoked on the knowledge agent inside its tool closure
(`src/agentX.py`, line 150). -/
def knowledgeToolCallMethod : String := "execute"

/-- Attribute invoked on the QnA agent inside its tool closure
(`src/agentX.py`, line 159). -/
def qnaToolCallMethod : String := "execute"

/-! ## Claim theorems -/

/-- Concrete collaborator bundle used by witness theorems. -/
def extSample : Externals where
  recruiterExecute := fun _ _ _ => "recruiter says yes"
  knowledgeExecute := fun _ _ _ => "study more SQL"
  qnaExecute := fun _ _ => Json.obj []
  reviewerExecute := fun _ _ => "nice resume"
  routerRun := fun _ _ _ => "routed answer"
  llmCall := fun q => "chat: " ++ q

/-- C1: per dispatch turn exactly one of the three mutually exclusive paths
runs, chosen solely by which documents are present: both documents → a
registry of exactly the three zero-argument tools
(recruiter-evaluation, skill-gap/knowledge, interview-question QnA) handed
to a single model-driven decision loop whose result is the final answer;
resume only → direct deterministic invocation of the resume reviewer with
the resume and user message, no registry; neither → the general chatbot
prompt alone.  Stated as refinement of `spec_dispatch`, which transcribes
the spec's decision policy, plus the registry's exact tool-name list and
the presence-only path selection. -/
theorem c1_dispatch_three_paths :
    ∀ (ext : Externals) (resume jd : Option String) (userInput : String),
      chatDispatch ext resume jd userInput = spec_dispatch ext resume jd userInput ∧
      (toolRegistry ext (resume.getD "") (jd.getD "") userInput).map Prod.fst =
        ["recruiter_agent_tool", "knowledge_agent_tool", "qna_agent_tool"] ∧
      pathKind (chatDispatch ext resume jd userInput) =
        (if truthy resume && truthy jd then PathKind.tools
         else if truthy resume then PathKind.review
         else PathKind.chat) := by
  intro ext resume jd u
  refine ⟨?_, rfl, ?_⟩ <;>
    cases hr : truthy resume <;> cases hj : truthy jd <;>
      simp [chatDispatch, spec_dispatch, pathKind, toolRegistry, hr, hj]

/-- C10: when the job description is present but the resume is absent (or
more generally whenever the resume slot is falsy), dispatch takes the
chatbot path and behaves identically to the no-document case: the job
description alone is ignored. -/
theorem c10_jd_only_ignored :
    ∀ (ext : Externals) (resume jd : Option String) (userInput : String),
      truthy resume = false → truthy jd = true →
      chatDispatch ext resume jd userInput = chatDispatch ext none none userInput ∧
      pathKind (chatDispatch ext resume jd userInput) = PathKind.chat := by
  intro ext resume jd u hr _
  have h1 : truthy none = false := rfl
  constructor <;> simp [chatDispatch, pathKind, hr, h1]

/-- Witness for C10 at a concrete turn: job description uploaded, no
resume. -/
theorem c10_jd_only_ignored_witness :
    truthy (none : Option String) = false ∧
    truthy (some "Great JD") = true ∧
    chatDispatch extSample none (some "Great JD") "hello" =
      chatDispatch extSample none none "hello" :=
  ⟨rfl, rfl,
    (c10_jd_only_ignored extSample none (some "Great JD") "hello" rfl rfl).1⟩

/-- C2: the QnA agent's JSON-repair procedure returns a mapping (`dict`) on
every input string; no exception crosses its boundary (the embedded
`json.loads` returns `none` for `JSONDecodeError`, and the `except` arm
yields the sentinel object). -/
theorem c2_qna_repair_total :
    ∀ raw : String, (qnaRepair raw).isObj = true := by
  intro raw
  unfold qnaRepair
  cases h : json_loads (qnaClean raw) with
  | none => rfl
  | some v => cases v <;> rfl

/-- C4 counterexample: on the spec's own example input — a fenced JSON
object with a trailing comma — the QnA repair procedure does not extract
`\x7b"a": 1\x7d`; it falls back to the sentinel structure, because it has
no structural-repair step and `json.loads` rejects trailing commas. -/
theorem c4_no_structural_repair_counterexample :
    qnaRepair "```json \x7b\"a\": 1,\x7d ```" = qnaSentinel "\x7b\"a\": 1,\x7d" ∧
    qnaSentinel "\x7b\"a\": 1,\x7d" ≠ Json.obj [("a", Json.num "1")] := by
  refine ⟨rfl, fun h => ?_⟩
  injection h with h1
  injection h1 with h2 _
  injection h2 with h3 _
  exact absurd h3 (by decide)

/-- C4 amended: the staged repair — locate a fenced block, else parse the
trimmed text, else structural repair (trailing commas, balancing) — is the
extraction agent's `safe_extract_json`, which on the fenced trailing-comma
input extracts `\x7b"a": 1\x7d` (and falls back to `\x7b\x7d`, not the
sentinel, on failure); the QnA agent's repair only strips fence markers and
parses, so on the same input it returns its sentinel. -/
theorem c4_staged_repair_in_extraction_agent :
    safe_extract_json "```json \x7b\"a\": 1,\x7d ```" = Json.obj [("a", Json.num "1")] ∧
    qnaRepair "```json \x7b\"a\": 1,\x7d ```" = qnaSentinel "\x7b\"a\": 1,\x7d" :=
  ⟨rfl, rfl⟩

/-- C5 counterexample: the sentinel nests the cleaned (stripped) text, not
the original raw text: unparseable prose with trailing whitespace comes
back stripped, not verbatim. -/
theorem c5_sentinel_not_verbatim_counterexample :
    qnaRepair "no json here " = qnaSentinel "no json here" ∧
    "no json here" ≠ "no json here " :=
  ⟨rfl, by decide⟩

/-- C5 amended: whenever the cleaned text does not parse as a JSON object,
the QnA repair returns exactly the sentinel
`\x7b"General": \x7b"Level 1": [], "Level 2": [], "Level 3": [cleaned]\x7d\x7d`,
where `cleaned` is the fence-stripped, whitespace-stripped model output (the
raw text up to that cleaning), so the skill→level→questions shape is always
honored and no parse error surfaces. -/
theorem c5_sentinel_shape :
    ∀ raw : String, isObjOpt (json_loads (qnaClean raw)) = false →
      qnaRepair raw = Json.obj [("General", Json.obj
        [("Level 1", Json.arr []),
         ("Level 2", Json.arr []),
         ("Level 3", Json.arr [Json.str (qnaClean raw)])])] := by
  intro raw h
  unfold qnaRepair
  cases hj : json_loads (qnaClean raw) with
  | none => rfl
  | some v =>
    cases v with
    | obj ms => rw [hj] at h; simp [isObjOpt] at h
    | null => rfl
    | bool b => rfl
    | num s => rfl
    | str s => rfl
    | arr xs => rfl

/-- Witness for C5 at concrete unparseable prose. -/
theorem c5_sentinel_shape_witness :
    isObjOpt (json_loads (qnaClean "I cannot help with that.")) = false ∧
    qnaRepair "I cannot help with that." = Json.obj [("General", Json.obj
      [("Level 1", Json.arr []),
       ("Level 2", Json.arr []),
       ("Level 3", Json.arr [Json.str (qnaClean "I cannot help with that.")])])] :=
  ⟨rfl, c5_sentinel_shape "I cannot help with that." rfl⟩

/-- C6: neither adapter operation lets a model-call failure escape: `_call`
returns the text on success and an `"An error occurred: "`-marked string on
any exception; `response` always returns a `content`-shaped object, with an
`"Error generating response: "`-marked content on any exception. -/
theorem c6_adapter_absorbs_failures :
    ∀ (generate : String → Except String String) (prompt e : String)
      (messages : PyMessages),
      generate prompt = Except.error e →
      GeminiFlashLLM_call generate prompt = "An error occurred: " ++ e ∧
      (messagesEmpty messages = false →
        generate (extractContent messages) = Except.error e →
        GeminiFlashLLM_response generate messages =
          ⟨"Error generating response: " ++ e⟩) ∧
      (∃ c, GeminiFlashLLM_response generate messages = ⟨c⟩) := by
  intro generate prompt e messages herr
  refine ⟨by simp [GeminiFlashLLM_call, herr], fun hne hge => ?_, ?_⟩
  · simp [GeminiFlashLLM_response, hne, hge]
  · cases hme : messagesEmpty messages with
    | true => exact ⟨"", by simp [GeminiFlashLLM_response, hme]⟩
    | false =>
      cases hg : generate (extractContent messages) with
      | ok t =>
        exact ⟨if t.isEmpty then "" else t,
          by simp [GeminiFlashLLM_response, hme, hg]⟩
      | error e2 =>
        exact ⟨"Error generating response: " ++ e2,
          by simp [GeminiFlashLLM_response, hme, hg]⟩

/-- Witness for C6: a model call that always raises. -/
theorem c6_adapter_absorbs_failures_witness :
    (fun _ : String => (Except.error "quota exceeded" : Except String String)) "p" =
      Except.error "quota exceeded" ∧
    GeminiFlashLLM_call (fun _ => Except.error "quota exceeded") "p" =
      "An error occurred: " ++ "quota exceeded" :=
  ⟨rfl,
    (c6_adapter_absorbs_failures (fun _ => Except.error "quota exceeded") "p"
      "quota exceeded" (PyMessages.ofString "m") rfl).1⟩

/-- C7: the claim says every specialized agent exposes `execute` and every
dispatch/tool call site invokes it; in the code the knowledge and QnA
agents do define `execute`, but the resume reviewer defines only
`run_review` and the recruiter only `run_evaluation`, while all four call
sites invoke the attribute `execute` — so those call sites name a method
the target classes do not define. -/
theorem c7_execute_missing_on_two_agents :
    reviewerCallMethod ∉ resumeReviewerAgentMethods ∧
    recruiterToolCallMethod ∉ recruiterAgentMethods ∧
    knowledgeToolCallMethod ∈ knowledgeAgentMethods ∧
    qnaToolCallMethod ∈ qnaAgentMethods := by decide

/-- C8 counterexample: two agents whose names collide after normalization do
not make registry construction fail: `RouterAgent.__init__` silently keeps
the last agent in its dict and builds two tools with the same identifier. -/
theorem c8_no_duplicate_detection_counterexample :
    routerNormalize "Recruiter Agent" = routerNormalize "recruiter agent" ∧
    routerAgentInit ["Recruiter Agent", "recruiter agent"] =
      Except.ok ([("recruiter_agent", "recruiter agent")],
        ["recruiter_agent_tool", "recruiter_agent_tool"]) := by
  exact ⟨rfl, rfl⟩

/-- Normalized name is one of the two the router recognizes. -/
def recognizedName (a : String) : Prop :=
  routerNormalize a = "recruiter_agent" ∨ routerNormalize a = "knowledge_agent"

/-- Tool identifier produced for a recognized agent name. -/
def toolNameFor (a : String) : String :=
  if routerNormalize a = "recruiter_agent" then "recruiter_agent_tool"
  else "knowledge_agent_tool"

theorem createTool_cases (a : String) :
    (createToolForAgent a = Except.ok (toolNameFor a) ∧ recognizedName a) ∨
    (createToolForAgent a =
        Except.error ("Invalid agent name provided " ++ routerNormalize a ++
          " for tool creation.") ∧ ¬recognizedName a) := by
  unfold createToolForAgent toolNameFor recognizedName
  by_cases h1 : routerNormalize a = "recruiter_agent" <;>
    by_cases h2 : routerNormalize a = "knowledge_agent" <;>
      simp [h1, h2]

theorem buildTools_ok_elim (l : List String) (ts : List String)
    (h : buildTools l = Except.ok ts) :
    (∀ a ∈ l, recognizedName a) ∧ ts = l.map toolNameFor := by
  induction l generalizing ts with
  | nil =>
    simp only [buildTools] at h
    injection h with h
    simp [h.symm]
  | cons a rest ih =>
    simp only [buildTools] at h
    rcases createTool_cases a with ⟨hok, hrec⟩ | ⟨herr, _⟩
    · rw [hok] at h
      cases hb : buildTools rest with
      | error e => rw [hb] at h; exact absurd h (by simp)
      | ok ts2 =>
        rw [hb] at h
        injection h with h
        obtain ⟨hall, hmap⟩ := ih ts2 hb
        refine ⟨?_, ?_⟩
        · intro x hx
          rcases List.mem_cons.mp hx with hx | hx
          · exact hx ▸ hrec
          · exact hall x hx
        · simp [h.symm, hmap]
    · rw [herr] at h; exact absurd h (by simp)

theorem buildTools_ok_intro (l : List String)
    (h : ∀ a ∈ l, recognizedName a) :
    buildTools l = Except.ok (l.map toolNameFor) := by
  induction l with
  | nil => rfl
  | cons a rest ih =>
    simp only [buildTools]
    rcases createTool_cases a with ⟨hok, _⟩ | ⟨_, hbad⟩
    · rw [hok, ih (fun x hx => h x (List.mem_cons_of_mem a hx))]
      simp
    · exact absurd (h a (List.mem_cons_self a rest)) hbad

/-- C8 amended: `RouterAgent` registry construction performs no duplicate
detection: it succeeds exactly when every agent's normalized name is one of
the two recognized names — colliding normalized names silently share one
dict entry and yield tools with identical identifiers — and it fails (with
`ValueError`, not a `DuplicateToolName` condition) exactly when some
normalized name is unrecognized; on success the tool list has one
fixed-name tool per input agent, duplicates included. -/
theorem c8_registry_construction_behavior :
    ∀ agents : List String,
      ((∃ result, routerAgentInit agents = Except.ok result) ↔
        ∀ a ∈ agents, recognizedName a) ∧
      (∀ m tools, routerAgentInit agents = Except.ok (m, tools) →
        tools = agents.map toolNameFor) := by
  intro agents
  constructor
  · constructor
    · rintro ⟨result, hres⟩
      unfold routerAgentInit at hres
      cases hb : buildTools agents with
      | error e => rw [hb] at hres; exact absurd hres (by simp)
      | ok ts => exact (buildTools_ok_elim agents ts hb).1
    · intro hall
      refine ⟨(availableAgents agents, agents.map toolNameFor), ?_⟩
      unfold routerAgentInit
      rw [buildTools_ok_intro agents hall]
  · intro m tools hres
    unfold routerAgentInit at hres
    cases hb : buildTools agents with
    | error e => rw [hb] at hres; exact absurd hres (by simp)
    | ok ts =>
      rw [hb] at hres
      injection hres with hres
      have := (buildTools_ok_elim agents ts hb).2
      have h2 : tools = ts := congrArg Prod.snd hres.symm
      rw [h2, this]

/-- Witness for C8 at a concrete agent list with a collision: construction
succeeds (both normalized names are recognized) and the tool list has one
entry per agent. -/
theorem c8_registry_construction_behavior_witness :
    routerAgentInit ["Recruiter Agent", "Knowledge Agent"] =
      Except.ok ([("recruiter_agent", "Recruiter Agent"),
        ("knowledge_agent", "Knowledge Agent")],
        ["recruiter_agent_tool", "knowledge_agent_tool"]) ∧
    ["recruiter_agent_tool", "knowledge_agent_tool"] =
      ["Recruiter Agent", "Knowledge Agent"].map toolNameFor :=
  ⟨rfl,
    (c8_registry_construction_behavior ["Recruiter Agent", "Knowledge Agent"]).2
      [("recruiter_agent", "Recruiter Agent"), ("knowledge_agent", "Knowledge Agent")]
      ["recruiter_agent_tool", "knowledge_agent_tool"] rfl⟩

/-- Helper naming the `ModelResponse` the adapter builds from a model call
on a given input. -/
def responseOf (generate : String → Except String String) (input : String) :
    ModelResponse :=
  match generate input with
  | .ok t => ⟨if t.isEmpty then "" else t⟩
  | .error e => ⟨"Error generating response: " ++ e⟩

/-- C9 counterexample: given the single (empty) string, `response` does not
use it as model input — the falsy-`messages` guard short-circuits to
content `""` without consulting the model, which here would have produced
`"hi"`; a nonempty string is used. -/
theorem c9_empty_string_not_used_counterexample :
    GeminiFlashLLM_response (fun _ => Except.ok "hi") (PyMessages.ofString "") = ⟨""⟩ ∧
    (⟨""⟩ : ModelResponse) ≠ ⟨"hi"⟩ ∧
    responseOf (fun _ => Except.ok "hi") "" = ⟨"hi"⟩ ∧
    GeminiFlashLLM_response (fun _ => Except.ok "hi") (PyMessages.ofString "x") = ⟨"hi"⟩ :=
  ⟨rfl, by decide, rfl, rfl⟩

/-- C9 amended: `response` always returns a `content`-shaped object; a
nonempty single string is used verbatim as the model input; for a list,
only the most recent turn's content is used (any prefix of earlier turns is
ignored); falsy input (empty string or empty list) short-circuits to
content `""` without a model call. -/
theorem c9_response_uses_last :
    ∀ (generate : String → Except String String) (s : String)
      (pre : List ChatMsg) (m : ChatMsg),
      (s.isEmpty = false →
        GeminiFlashLLM_response generate (.ofString s) = responseOf generate s) ∧
      GeminiFlashLLM_response generate (.ofList (pre ++ [m])) =
        responseOf generate (msgText m) ∧
      GeminiFlashLLM_response generate (.ofList (pre ++ [m])) =
        GeminiFlashLLM_response generate (.ofList [m]) ∧
      GeminiFlashLLM_response generate (.ofString "") = ⟨""⟩ ∧
      GeminiFlashLLM_response generate (.ofList []) = ⟨""⟩ := by
  intro generate s pre m
  have hlast : (pre ++ [m]).getLast? = some m := by
    simp [List.getLast?_concat]
  have hne : ((pre ++ [m]).isEmpty) = false := by
    cases pre <;> simp [List.isEmpty]
  refine ⟨fun hs => ?_, ?_, ?_, rfl, rfl⟩
  · simp [GeminiFlashLLM_response, messagesEmpty, hs, extractContent, responseOf]
  · simp [GeminiFlashLLM_response, messagesEmpty, hne, extractContent, hlast, responseOf]
  · simp [GeminiFlashLLM_response, messagesEmpty, hne, extractContent, hlast, responseOf]

/-- Witness for C9: a nonempty string is used as the model input. -/
theorem c9_response_uses_last_witness :
    "ask".isEmpty = false ∧
    GeminiFlashLLM_response (fun q => Except.ok ("echo " ++ q))
      (PyMessages.ofString "ask") =
      responseOf (fun q => Except.ok ("echo " ++ q)) "ask" :=
  ⟨rfl,
    (c9_response_uses_last (fun q => Except.ok ("echo " ++ q)) "ask" []
      (ChatMsg.withContent "c")).1 rfl⟩

/-! ## Machinery for the JSON-repair idempotence claim -/

theorem subFences_of_no_triple (l : List Char) :
    hasTriple l = false → subFences l = l := by
  induction l using subFences.induct with
  | case1 rest ih =>
    intro h
    simp [hasTriple, startsWithTicks] at h
  | case2 rest h1 ih =>
    intro h
    simp [hasTriple, startsWithTicks] at h
  | case3 c rest h1 h2 ih =>
    intro h
    rw [hasTriple] at h
    simp only [Bool.or_eq_false_iff] at h
    rw [subFences.eq_3 c rest h1 h2, ih h.2]
  | case4 =>
    intro h
    rfl

theorem replaceTicks_of_no_triple (l : List Char) :
    hasTriple l = false → replaceTicks l = l := by
  induction l using replaceTicks.induct with
  | case1 rest ih =>
    intro h
    simp [hasTriple, startsWithTicks] at h
  | case2 c rest h1 ih =>
    intro h
    rw [hasTriple] at h
    simp only [Bool.or_eq_false_iff] at h
    rw [replaceTicks.eq_2 c rest h1, ih h.2]
  | case3 =>
    intro h
    rfl

theorem isPyWs_of_isJsonWs (c : Char) : isJsonWs c = true → isPyWs c = true := by
  intro h
  simp only [isJsonWs, Bool.or_eq_true, decide_eq_true_eq] at h
  rcases h with ((h | h) | h) | h <;> simp [isPyWs, h]

theorem dropWhile_append_all (p : Char → Bool) (a b : List Char)
    (ha : ∀ x ∈ a, p x = true) :
    (a ++ b).dropWhile p = b.dropWhile p := by
  induction a with
  | nil => rfl
  | cons x xs ih =>
    rw [List.cons_append, List.dropWhile_cons,
      if_pos (ha x (List.mem_cons_self x xs))]
    exact ih (fun y hy => ha y (List.mem_cons_of_mem x hy))

theorem dropWhile_pyWs_eq_dropWhile_jsonWs (l : List Char)
    (h : ∀ c, (l.dropWhile isJsonWs).head? = some c → isPyWs c = false) :
    l.dropWhile isPyWs = l.dropWhile isJsonWs := by
  induction l with
  | nil => rfl
  | cons a t ih =>
    by_cases ha : isJsonWs a = true
    · rw [List.dropWhile_cons, if_pos (isPyWs_of_isJsonWs a ha),
        List.dropWhile_cons, if_pos ha]
      apply ih
      intro c hc
      apply h
      rw [List.dropWhile_cons, if_pos ha]
      exact hc
    · have hfa : isPyWs a = false := by
        apply h
        rw [List.dropWhile_cons, if_neg ha]
        rfl
      rw [List.dropWhile_cons, if_neg (by simp [hfa]),
        List.dropWhile_cons, if_neg ha]

theorem parseStringRest_decomp :
    ∀ (acc : List Nat) (l : List Char), ∀ (s : String) r,
      parseStringRest acc l = some (s, r) →
      ∃ cs, l = cs ++ r.1 ∧ cs ≠ [] ∧ cs.getLast? = some '"' := by
  intro acc l
  induction acc, l using parseStringRest.induct with
  | case1 x =>
    intro s r h
    rw [parseStringRest.eq_1] at h
    exact absurd h (by simp)
  | case2 acc rest =>
    intro s r h
    rw [parseStringRest.eq_2] at h
    rcases Option.map_eq_some'.mp h with ⟨cs0, hdec, heq⟩
    have hr : r.1 = rest := congrArg (fun q => q.2.1) heq.symm
    refine ⟨['"'], ?_, by simp, rfl⟩
    rw [hr]
    rfl
  | case3 acc h1 h2 h3 h4 rest a b c d hx4 hx3 hx2 hx1 ih =>
    intro s r h
    rw [parseStringRest.eq_3, hx1, hx2, hx3, hx4] at h
    rcases Option.map_eq_some'.mp h with ⟨⟨s2, r2⟩, hrec, heq⟩
    have hr : r.1 = r2.1 := congrArg (fun q => q.2.1) heq.symm
    obtain ⟨cs2, hcs2, hne2, hlast2⟩ := ih s2 r2 hrec
    refine ⟨'\\' :: 'u' :: h1 :: h2 :: h3 :: h4 :: cs2, ?_, by simp, ?_⟩
    · rw [hr]
      simp [hcs2]
    · show (['\\', 'u', h1, h2, h3, h4] ++ cs2).getLast? = some '"'
      rw [List.getLast?_append_of_ne_nil _ hne2]
      exact hlast2
  | case4 acc h1 h2 h3 h4 rest hexc =>
    intro s r h
    rw [parseStringRest.eq_3] at h
    rcases hx1 : hexVal h1 with _ | a
    · rw [hx1] at h
      exact absurd h (by simp)
    rcases hx2 : hexVal h2 with _ | b
    · rw [hx1, hx2] at h
      exact absurd h (by simp)
    rcases hx3 : hexVal h3 with _ | c
    · rw [hx1, hx2, hx3] at h
      exact absurd h (by simp)
    rcases hx4 : hexVal h4 with _ | d
    · rw [hx1, hx2, hx3, hx4] at h
      exact absurd h (by simp)
    exact (hexc a b c d hx1 hx2 hx3 hx4).elim
  | case5 acc e rest hexcl ch hch ih =>
    intro s r h
    rw [parseStringRest.eq_4 acc e rest hexcl, hch] at h
    rcases Option.map_eq_some'.mp h with ⟨⟨s2, r2⟩, hrec, heq⟩
    have hr : r.1 = r2.1 := congrArg (fun q => q.2.1) heq.symm
    obtain ⟨cs2, hcs2, hne2, hlast2⟩ := ih s2 r2 hrec
    refine ⟨'\\' :: e :: cs2, ?_, by simp, ?_⟩
    · rw [hr]
      simp [hcs2]
    · show (['\\', e] ++ cs2).getLast? = some '"'
      rw [List.getLast?_append_of_ne_nil _ hne2]
      exact hlast2
  | case6 acc e rest hexcl hch =>
    intro s r h
    rw [parseStringRest.eq_4 acc e rest hexcl, hch] at h
    exact absurd h (by simp)
  | case7 x =>
    intro s r h
    rw [parseStringRest.eq_5] at h
    exact absurd h (by simp)
  | case8 acc c rest hq hu he hnil hctrl =>
    intro s r h
    rw [parseStringRest.eq_6 acc c rest hq hu he hnil, if_pos hctrl] at h
    exact absurd h (by simp)
  | case9 acc c rest hq hu he hnil hctrl ih =>
    intro s r h
    rw [parseStringRest.eq_6 acc c rest hq hu he hnil, if_neg hctrl] at h
    rcases Option.map_eq_some'.mp h with ⟨⟨s2, r2⟩, hrec, heq⟩
    have hr : r.1 = r2.1 := congrArg (fun q => q.2.1) heq.symm
    obtain ⟨cs2, hcs2, hne2, hlast2⟩ := ih s2 r2 hrec
    refine ⟨c :: cs2, ?_, by simp, ?_⟩
    · rw [hr]
      simp [hcs2]
    · show ([c] ++ cs2).getLast? = some '"'
      rw [List.getLast?_append_of_ne_nil _ hne2]
      exact hlast2

theorem parseStringRest_local :
    ∀ (acc : List Nat) (l : List Char), ∀ (s : String) r cs (X : List Char),
      parseStringRest acc l = some (s, r) → l = cs ++ r.1 →
      ∃ rz, parseStringRest acc (cs ++ X) = some (s, rz) ∧ rz.1 = X := by
  intro acc l
  induction acc, l using parseStringRest.induct with
  | case1 x =>
    intro s r cs X h hcs
    rw [parseStringRest.eq_1] at h
    exact absurd h (by simp)
  | case2 acc rest =>
    intro s r cs X h hcs
    rw [parseStringRest.eq_2] at h
    rcases Option.map_eq_some'.mp h with ⟨cs0, hdec, heq⟩
    have hr : r.1 = rest := congrArg (fun q => q.2.1) heq.symm
    have hs : s = ⟨cs0⟩ := (congrArg Prod.fst heq).symm
    have hx : cs ++ r.1 = ['"'] ++ r.1 := by
      rw [← hcs, hr]
      rfl
    have hcq : cs = ['"'] := List.append_cancel_right hx
    subst hcq hs
    have hb2 : X.length < ('"' :: X).length := by simp
    have key : parseStringRest acc ('"' :: X) = some (⟨cs0⟩, ⟨X, hb2⟩) := by
      rw [parseStringRest.eq_2, hdec]
      rfl
    exact ⟨⟨X, hb2⟩, key, rfl⟩
  | case3 acc h1 h2 h3 h4 rest a b c d hx4 hx3 hx2 hx1 ih =>
    intro s r cs X h hcs
    rw [parseStringRest.eq_3] at h
    simp only [hx1, hx2, hx3, hx4] at h
    rcases Option.map_eq_some'.mp h with ⟨⟨s2, r2⟩, hrec, heq⟩
    have hr : r.1 = r2.1 := congrArg (fun q => q.2.1) heq.symm
    have hs : s = s2 := (congrArg Prod.fst heq).symm
    obtain ⟨cs2, hcs2, hne2, hlast2⟩ := parseStringRest_decomp _ _ s2 r2 hrec
    have hx : cs ++ r2.1 = ('\\' :: 'u' :: h1 :: h2 :: h3 :: h4 :: cs2) ++ r2.1 := by
      rw [← hr, ← hcs]
      simp [hcs2, hr]
    have hcq : cs = '\\' :: 'u' :: h1 :: h2 :: h3 :: h4 :: cs2 :=
      List.append_cancel_right hx
    obtain ⟨rz2, hrz2, hrznil⟩ := ih s2 r2 cs2 X hrec hcs2
    subst hcq hs
    have hb2 : rz2.1.length
        < ('\\' :: 'u' :: h1 :: h2 :: h3 :: h4 :: (cs2 ++ X)).length := by
      have hb := rz2.2
      simp only [List.length_cons, List.length_append] at hb ⊢
      omega
    have key : parseStringRest acc
        ('\\' :: 'u' :: h1 :: h2 :: h3 :: h4 :: (cs2 ++ X))
        = some (s, ⟨rz2.1, hb2⟩) := by
      rw [parseStringRest.eq_3]
      simp only [hx1, hx2, hx3, hx4, hrz2, Option.map_some]
      rfl
    exact ⟨⟨rz2.1, hb2⟩, key, hrznil⟩
  | case4 acc h1 h2 h3 h4 rest hexc =>
    intro s r cs X h hcs
    rw [parseStringRest.eq_3] at h
    rcases hx1 : hexVal h1 with _ | a
    · rw [hx1] at h
      exact absurd h (by simp)
    rcases hx2 : hexVal h2 with _ | b
    · rw [hx1, hx2] at h
      exact absurd h (by simp)
    rcases hx3 : hexVal h3 with _ | c
    · rw [hx1, hx2, hx3] at h
      exact absurd h (by simp)
    rcases hx4 : hexVal h4 with _ | d
    · rw [hx1, hx2, hx3, hx4] at h
      exact absurd h (by simp)
    exact (hexc a b c d hx1 hx2 hx3 hx4).elim
  | case5 acc e rest hexcl ch hch ih =>
    intro s r cs X h hcs
    rw [parseStringRest.eq_4 acc e rest hexcl] at h
    simp only [hch] at h
    rcases Option.map_eq_some'.mp h with ⟨⟨s2, r2⟩, hrec, heq⟩
    have hr : r.1 = r2.1 := congrArg (fun q => q.2.1) heq.symm
    have hs : s = s2 := (congrArg Prod.fst heq).symm
    obtain ⟨cs2, hcs2, hne2, hlast2⟩ := parseStringRest_decomp _ _ s2 r2 hrec
    have hx : cs ++ r2.1 = ('\\' :: e :: cs2) ++ r2.1 := by
      rw [← hr, ← hcs]
      simp [hcs2, hr]
    have hcq : cs = '\\' :: e :: cs2 := List.append_cancel_right hx
    obtain ⟨rz2, hrz2, hrznil⟩ := ih s2 r2 cs2 X hrec hcs2
    subst hcq hs
    have heu : e ≠ 'u' := by
      intro he
      rw [he] at hch
      exact absurd hch (by simp [escMap])
    have hb2 : rz2.1.length < ('\\' :: e :: (cs2 ++ X)).length := by
      have hb := rz2.2
      simp only [List.length_cons, List.length_append] at hb ⊢
      omega
    have key : parseStringRest acc ('\\' :: e :: (cs2 ++ X))
        = some (s, ⟨rz2.1, hb2⟩) := by
      rw [parseStringRest.eq_4 acc e (cs2 ++ X) (fun _ _ _ _ _ he _ => heu he)]
      simp only [hch, hrz2, Option.map_some]
      rfl
    exact ⟨⟨rz2.1, hb2⟩, key, hrznil⟩
  | case6 acc e rest hexcl hch =>
    intro s r cs X h hcs
    rw [parseStringRest.eq_4 acc e rest hexcl] at h
    simp only [hch] at h
    exact absurd h (by simp)
  | case7 x =>
    intro s r cs X h hcs
    rw [parseStringRest.eq_5] at h
    exact absurd h (by simp)
  | case8 acc c rest hq hu he hnil hctrl =>
    intro s r cs X h hcs
    rw [parseStringRest.eq_6 acc c rest hq hu he hnil, if_pos hctrl] at h
    exact absurd h (by simp)
  | case9 acc c rest hq hu he hnil hctrl ih =>
    intro s r cs X h hcs
    rw [parseStringRest.eq_6 acc c rest hq hu he hnil, if_neg hctrl] at h
    rcases Option.map_eq_some'.mp h with ⟨⟨s2, r2⟩, hrec, heq⟩
    have hr : r.1 = r2.1 := congrArg (fun q => q.2.1) heq.symm
    have hs : s = s2 := (congrArg Prod.fst heq).symm
    obtain ⟨cs2, hcs2, hne2, hlast2⟩ := parseStringRest_decomp _ _ s2 r2 hrec
    have hx : cs ++ r2.1 = (c :: cs2) ++ r2.1 := by
      rw [← hr, ← hcs]
      simp [hcs2, hr]
    have hcq : cs = c :: cs2 := List.append_cancel_right hx
    obtain ⟨rz2, hrz2, hrznil⟩ := ih s2 r2 cs2 X hrec hcs2
    subst hcq hs
    have hcb : c ≠ '\\' := by
      intro hcb
      cases rest with
      | nil => exact hnil hcb rfl
      | cons a t => exact he a t hcb rfl
    have hb2 : rz2.1.length < (c :: (cs2 ++ X)).length := by
      have hb := rz2.2
      simp only [List.length_cons, List.length_append] at hb ⊢
      omega
    have key : parseStringRest acc (c :: (cs2 ++ X))
        = some (s, ⟨rz2.1, hb2⟩) := by
      rw [parseStringRest.eq_6 acc c (cs2 ++ X) hq
        (fun _ _ _ _ _ hcc _ => hcb hcc) (fun _ _ hcc _ => hcb hcc)
        (fun hcc _ => hcb hcc), if_neg hctrl, hrz2]
      rfl
    exact ⟨⟨rz2.1, hb2⟩, key, hrznil⟩

theorem digit_toNat (c : Char) (h : c.isDigit = true) :
    48 ≤ c.val.toNat ∧ c.val.toNat ≤ 57 := by
  simp only [Char.isDigit, Bool.and_eq_true, decide_eq_true_eq] at h
  exact ⟨h.1, h.2⟩

theorem digit_not_pyWs (c : Char) (h : c.isDigit = true) : isPyWs c = false := by
  have hd := digit_toNat c h
  by_contra hne
  rw [Bool.not_eq_false] at hne
  simp only [isPyWs, Bool.or_eq_true, decide_eq_true_eq, beq_iff_eq,
    Bool.and_eq_true] at hne
  rcases hne with ((((((((((((((h1|h1)|h1)|h1)|h1)|h1)|hr)|h1)|h1)|h1)|hr)|h1)|h1)|h1)|h1)|h1
  all_goals first
    | (rw [h1] at hd; exact absurd hd (by decide))
    | (have hc : (28 : Nat) ≤ c.val.toNat := hr.1
       have hcb : c.val.toNat ≤ (31 : Nat) := hr.2
       omega)
    | (have hc : (8192 : Nat) ≤ c.val.toNat := hr.1
       have hcb : c.val.toNat ≤ (8202 : Nat) := hr.2
       omega)

theorem digit_not_jsonWs (c : Char) (h : c.isDigit = true) :
    isJsonWs c = false := by
  by_contra hne
  rw [Bool.not_eq_false] at hne
  have hp := isPyWs_of_isJsonWs c hne
  rw [digit_not_pyWs c h] at hp
  cases hp

theorem jsonWs_char_facts (c : Char) (h : isJsonWs c = true) :
    c.isDigit = false ∧ c ≠ '.' ∧ c ≠ 'e' ∧ c ≠ 'E' ∧ c ≠ '+' ∧ c ≠ '-' := by
  simp only [isJsonWs, Bool.or_eq_true, decide_eq_true_eq] at h
  rcases h with ((h | h) | h) | h <;> subst h <;>
    exact ⟨by decide, by decide, by decide, by decide, by decide, by decide⟩

theorem all_head_facts (r : List Char) (hr : r.all isJsonWs = true) :
    ∀ c, r.head? = some c →
      c.isDigit = false ∧ c ≠ '.' ∧ c ≠ 'e' ∧ c ≠ 'E' ∧ c ≠ '+' ∧ c ≠ '-' := by
  intro c hc
  cases r with
  | nil => cases hc
  | cons x xs =>
    simp only [List.head?_cons, Option.some.injEq] at hc
    simp only [List.all_cons, Bool.and_eq_true] at hr
    exact hc ▸ jsonWs_char_facts x hr.1

theorem takeWhile_digit_append (a b : List Char)
    (hb : ∀ c, b.head? = some c → c.isDigit = false) :
    (a ++ b).takeWhile Char.isDigit = a.takeWhile Char.isDigit ∧
    (a ++ b).dropWhile Char.isDigit = a.dropWhile Char.isDigit ++ b := by
  induction a with
  | nil =>
    cases b with
    | nil => exact ⟨rfl, rfl⟩
    | cons x xs =>
      constructor
      · rw [List.nil_append, List.takeWhile_cons, hb x rfl]
        rfl
      · rw [List.nil_append, List.dropWhile_cons, hb x rfl]
        rfl
  | cons x xs ih =>
    by_cases hx : x.isDigit = true
    · constructor
      · simp [List.takeWhile_cons, hx, ih.1]
      · simp [List.dropWhile_cons, hx, ih.2]
    · rw [Bool.not_eq_true] at hx
      constructor
      · simp [List.takeWhile_cons, hx]
      · simp [List.dropWhile_cons, hx]

theorem getLast?_append_pred (p : Char → Bool) (f x : List Char)
    (hf : ∀ d, f.getLast? = some d → p d = true)
    (hx : ∀ d, x.getLast? = some d → p d = true) :
    ∀ d, (f ++ x).getLast? = some d → p d = true := by
  intro d hd
  by_cases hxe : x = []
  · subst hxe
    rw [List.append_nil] at hd
    exact hf d hd
  · rw [List.getLast?_append_of_ne_nil _ hxe] at hd
    exact hx d hd

theorem getLast?_singleton_pred (p : Char → Bool) (c : Char) (hc : p c = true) :
    ∀ d, ([c] : List Char).getLast? = some d → p d = true := by
  intro d hd
  simp only [List.getLast?_singleton, Option.some.injEq] at hd
  exact hd ▸ hc

theorem takeWhile_getLast_digit (t : List Char) :
    ∀ d, (t.takeWhile Char.isDigit).getLast? = some d → d.isDigit = true :=
  fun d hd => List.mem_takeWhile_imp (List.mem_of_mem_getLast? hd)

theorem headIs_decomp (c : Char) (l : List Char) (h : headIs c l = true) :
    l = c :: l.tail := by
  cases l with
  | nil => cases h
  | cons x t =>
    simp only [headIs, decide_eq_true_eq] at h
    rw [h]
    rfl

theorem headIs_append_left (c : Char) (a b : List Char) (ha : a ≠ []) :
    headIs c (a ++ b) = headIs c a := by
  cases a with
  | nil => exact absurd rfl ha
  | cons x t => rfl

theorem dropWhile_all_nil (p : Char → Bool) (l : List Char)
    (h : l.all p = true) : l.dropWhile p = [] := by
  induction l with
  | nil => rfl
  | cons x xs ih =>
    simp only [List.all_cons, Bool.and_eq_true] at h
    rw [List.dropWhile_cons, h.1]
    exact ih h.2

theorem dropWhile_append_left (p : Char → Bool) (a b : List Char)
    (h : a.dropWhile p ≠ []) :
    (a ++ b).dropWhile p = a.dropWhile p ++ b := by
  rw [List.dropWhile_append, if_neg (by simp [h])]

theorem nil_of_append_eq_self (a b : List Char) (h : a ++ b = b) : a = [] :=
  List.self_eq_append_left.mp h.symm

theorem numFrac_not_dot (l : List Char)
    (h : ∀ c, l.head? = some c → c ≠ '.') :
    numFrac l = ([], ⟨l, le_refl _⟩) := by
  rw [numFrac.eq_2 l (fun t ht => by
    subst ht
    exact h '.' rfl rfl)]

theorem numFrac_decomp (l : List Char) :
    l = (numFrac l).1 ++ (numFrac l).2.1 := by
  cases l with
  | nil => rfl
  | cons x t =>
    by_cases hx : x = '.'
    · subst hx
      by_cases hne : ((t.takeWhile Char.isDigit).isEmpty : Bool) = true
      · simp only [numFrac, if_pos hne]
        rfl
      · simp only [numFrac, if_neg hne]
        rw [List.cons_append, List.takeWhile_append_dropWhile]
    · rw [numFrac_not_dot (x :: t) (fun c hc => by
        rw [List.head?_cons, Option.some.injEq] at hc
        exact hc ▸ hx)]
      rfl

theorem numFrac_last (l : List Char) :
    ∀ c, (numFrac l).1.getLast? = some c → c.isDigit = true := by
  intro c hc
  cases l with
  | nil => simp [numFrac] at hc
  | cons x t =>
    by_cases hx : x = '.'
    · subst hx
      by_cases hne : ((t.takeWhile Char.isDigit).isEmpty : Bool) = true
      · simp only [numFrac, if_pos hne] at hc
        simp at hc
      · simp only [numFrac, if_neg hne] at hc
        have htne : t.takeWhile Char.isDigit ≠ [] := by
          intro h0
          rw [h0] at hne
          exact hne rfl
        rw [show ('.' :: t.takeWhile Char.isDigit)
            = ['.'] ++ t.takeWhile Char.isDigit from rfl,
          List.getLast?_append_of_ne_nil _ htne] at hc
        exact takeWhile_getLast_digit t c hc
    · rw [numFrac_not_dot (x :: t) (fun c2 hc2 => by
        rw [List.head?_cons, Option.some.injEq] at hc2
        exact hc2 ▸ hx)] at hc
      simp at hc

theorem numFrac_append (a r : List Char)
    (hr : ∀ c, r.head? = some c →
      c.isDigit = false ∧ c ≠ '.' ∧ c ≠ 'e' ∧ c ≠ 'E' ∧ c ≠ '+' ∧ c ≠ '-') :
    (numFrac (a ++ r)).1 = (numFrac a).1 ∧
    (numFrac (a ++ r)).2.1 = (numFrac a).2.1 ++ r := by
  cases a with
  | nil =>
    rw [List.nil_append, numFrac_not_dot r (fun c hc => (hr c hc).2.1)]
    exact ⟨rfl, rfl⟩
  | cons x t =>
    have haux := takeWhile_digit_append t r (fun c hc => (hr c hc).1)
    by_cases hx : x = '.'
    · subst hx
      rw [List.cons_append]
      constructor
      · show (numFrac ('.' :: (t ++ r))).1 = (numFrac ('.' :: t)).1
        simp only [numFrac, haux.1]
        by_cases hne : ((t.takeWhile Char.isDigit).isEmpty : Bool) = true
        · rw [if_pos hne, if_pos hne]
        · rw [if_neg hne, if_neg hne]
      · show (numFrac ('.' :: (t ++ r))).2.1 = (numFrac ('.' :: t)).2.1 ++ r
        simp only [numFrac, haux.1, haux.2]
        by_cases hne : ((t.takeWhile Char.isDigit).isEmpty : Bool) = true
        · rw [if_pos hne, if_pos hne]
          rfl
        · rw [if_neg hne, if_neg hne]
    · have hh1 : ∀ c2, (x :: (t ++ r)).head? = some c2 → c2 ≠ '.' := by
        intro c2 hc2
        rw [List.head?_cons, Option.some.injEq] at hc2
        exact hc2 ▸ hx
      have hh2 : ∀ c2, (x :: t).head? = some c2 → c2 ≠ '.' := by
        intro c2 hc2
        rw [List.head?_cons, Option.some.injEq] at hc2
        exact hc2 ▸ hx
      rw [List.cons_append, numFrac_not_dot _ hh1, numFrac_not_dot _ hh2]
      exact ⟨rfl, rfl⟩

theorem numExp_not_e (l : List Char)
    (h : ∀ c, l.head? = some c → c ≠ 'e' ∧ c ≠ 'E') :
    numExp l = ([], ⟨l, le_refl _⟩) := by
  rw [numExp.eq_def]
  split
  · rename_i e s t2
    have he := h e rfl
    rw [if_neg (by simp [he.1, he.2])]
  · rfl

theorem numExp_decomp (l : List Char) :
    l = (numExp l).1 ++ (numExp l).2.1 := by
  rw [numExp.eq_def]
  split
  · rename_i e s t2
    by_cases he : ((e = 'e' || e = 'E') : Bool) = true
    · rw [if_pos he]
      by_cases hs : ((s = '+' || s = '-') : Bool) = true
      · rw [if_pos hs]
        by_cases hne : ((t2.takeWhile Char.isDigit).isEmpty : Bool) = true
        · rw [if_pos hne]
          rfl
        · rw [if_neg hne]
          simp only [List.cons_append]
          rw [List.takeWhile_append_dropWhile]
      · rw [if_neg hs]
        by_cases hne : (((s :: t2).takeWhile Char.isDigit).isEmpty : Bool) = true
        · rw [if_pos hne]
          rfl
        · rw [if_neg hne]
          simp only [List.cons_append]
          rw [List.takeWhile_append_dropWhile]
    · rw [if_neg he]
      rfl
  · rfl

theorem numExp_last (l : List Char) :
    ∀ c, (numExp l).1.getLast? = some c → c.isDigit = true := by
  intro c hc
  rw [numExp.eq_def] at hc
  split at hc
  · rename_i e s t2
    split at hc
    · split at hc
      · split at hc
        · simp at hc
        · rename_i hne
          have htne : t2.takeWhile Char.isDigit ≠ [] := by
            intro h0
            rw [h0] at hne
            exact hne rfl
          rw [show (e :: s :: t2.takeWhile Char.isDigit)
              = [e, s] ++ t2.takeWhile Char.isDigit from rfl] at hc
          rw [List.getLast?_append_of_ne_nil _ htne] at hc
          exact takeWhile_getLast_digit t2 c hc
      · split at hc
        · simp at hc
        · rename_i hne
          have htne : (s :: t2).takeWhile Char.isDigit ≠ [] := by
            intro h0
            rw [h0] at hne
            exact hne rfl
          rw [show (e :: (s :: t2).takeWhile Char.isDigit)
              = [e] ++ (s :: t2).takeWhile Char.isDigit from rfl] at hc
          rw [List.getLast?_append_of_ne_nil _ htne] at hc
          exact takeWhile_getLast_digit (s :: t2) c hc
    · simp at hc
  · simp at hc

theorem numExp_append (a r : List Char)
    (hr : ∀ c, r.head? = some c →
      c.isDigit = false ∧ c ≠ '.' ∧ c ≠ 'e' ∧ c ≠ 'E' ∧ c ≠ '+' ∧ c ≠ '-') :
    (numExp (a ++ r)).1 = (numExp a).1 ∧
    (numExp (a ++ r)).2.1 = (numExp a).2.1 ++ r := by
  cases r with
  | nil =>
    constructor
    · rw [List.append_nil]
    · rw [List.append_nil, List.append_nil]
  | cons s0 rt0 =>
    have hfacts := hr s0 rfl
    have hb : ∀ c, (s0 :: rt0).head? = some c → c.isDigit = false :=
      fun c hc => (hr c hc).1
    cases a with
    | nil =>
      rw [List.nil_append, numExp_not_e (s0 :: rt0)
        (fun c hc => ⟨(hr c hc).2.2.1, (hr c hc).2.2.2.1⟩)]
      exact ⟨rfl, rfl⟩
    | cons e t =>
      cases t with
      | nil =>
        by_cases he : ((e = 'e' || e = 'E') : Bool) = true
        · have hsn : ¬ (((s0 = '+' || s0 = '-') : Bool) = true) := by
            simp [hfacts.2.2.2.2.1, hfacts.2.2.2.2.2]
          have htw : (s0 :: rt0).takeWhile Char.isDigit = [] := by
            rw [List.takeWhile_cons, hfacts.1]
            rfl
          have htwe : (((s0 :: rt0).takeWhile Char.isDigit).isEmpty : Bool)
              = true := by
            rw [htw]
            rfl
          have h1 : numExp [e] = ([], ⟨[e], le_refl _⟩) := rfl
          constructor
          · show (numExp (e :: s0 :: rt0)).1 = (numExp [e]).1
            rw [h1]
            simp only [numExp, if_pos he, if_neg hsn, if_pos htwe]
          · show (numExp (e :: s0 :: rt0)).2.1 = (numExp [e]).2.1 ++ (s0 :: rt0)
            rw [h1]
            simp only [numExp, if_pos he, if_neg hsn, if_pos htwe]
            rfl
        · have hee : e ≠ 'e' ∧ e ≠ 'E' := by
            constructor <;> intro h0 <;> subst h0 <;> exact he (by simp)
          have hh : ∀ c, (e :: s0 :: rt0).head? = some c → c ≠ 'e' ∧ c ≠ 'E' := by
            intro c hc
            rw [List.head?_cons, Option.some.injEq] at hc
            exact hc ▸ hee
          have h1 : numExp [e] = ([], ⟨[e], le_refl _⟩) := rfl
          show (numExp (e :: s0 :: rt0)).1 = (numExp [e]).1 ∧
            (numExp (e :: s0 :: rt0)).2.1 = (numExp [e]).2.1 ++ (s0 :: rt0)
          rw [h1, numExp_not_e (e :: s0 :: rt0) hh]
          exact ⟨rfl, rfl⟩
      | cons s t2 =>
        show (numExp (e :: s :: (t2 ++ (s0 :: rt0)))).1 = (numExp (e :: s :: t2)).1 ∧
          (numExp (e :: s :: (t2 ++ (s0 :: rt0)))).2.1
            = (numExp (e :: s :: t2)).2.1 ++ (s0 :: rt0)
        by_cases he : ((e = 'e' || e = 'E') : Bool) = true
        · by_cases hs : ((s = '+' || s = '-') : Bool) = true
          · have haux := takeWhile_digit_append t2 (s0 :: rt0) hb
            by_cases hne : ((t2.takeWhile Char.isDigit).isEmpty : Bool) = true
            · constructor <;>
                (simp only [numExp, if_pos he, if_pos hs, haux.1, haux.2,
                  if_pos hne]
                 try rfl)
            · constructor <;>
                (simp only [numExp, if_pos he, if_pos hs, haux.1, haux.2,
                  if_neg hne]
                 try rfl)
          · have haux := takeWhile_digit_append (s :: t2) (s0 :: rt0) hb
            have hsc : (s :: (t2 ++ (s0 :: rt0))) = (s :: t2) ++ (s0 :: rt0) := rfl
            by_cases hne : (((s :: t2).takeWhile Char.isDigit).isEmpty : Bool)
                = true
            · constructor <;>
                (simp only [numExp, if_pos he, if_neg hs, hsc, haux.1, haux.2,
                  if_pos hne]
                 try rfl)
            · constructor <;>
                (simp only [numExp, if_pos he, if_neg hs, hsc, haux.1, haux.2,
                  if_neg hne]
                 try rfl)
        · constructor <;>
            (simp only [numExp, if_neg he]
             try rfl)

theorem stripPrefixChars_decomp :
    ∀ (p l : List Char) r, stripPrefixChars p l = some r → l = p ++ r.1 := by
  intro p
  induction p with
  | nil =>
    intro l r h
    rw [stripPrefixChars.eq_1] at h
    injection h with h2
    rw [List.nil_append, ← congrArg Subtype.val h2]
  | cons x ps ih =>
    intro l r h
    cases l with
    | nil =>
      rw [show stripPrefixChars (x :: ps) ([] : List Char) = none from rfl] at h
      cases h
    | cons c cs =>
      by_cases hx : x = c
      · subst hx
        rw [stripPrefixChars.eq_3, if_pos rfl] at h
        rcases Option.map_eq_some'.mp h with ⟨r2, hrec, heq⟩
        have hval : r2.1 = r.1 := congrArg Subtype.val heq
        rw [List.cons_append, ← hval]
        exact congrArg (List.cons x) (ih cs r2 hrec)
      · rw [stripPrefixChars.eq_3, if_neg hx] at h
        cases h

theorem stripPrefixChars_ne (p : Char) (ps : List Char) (c : Char)
    (cs : List Char) (h : ¬ (p = c)) :
    stripPrefixChars (p :: ps) (c :: cs) = none := by
  rw [stripPrefixChars.eq_3, if_neg h]

theorem ne_digit_sym (c d : Char) (hc : c.isDigit = true)
    (hd : d.isDigit = false) : ¬ (d = c) := by
  intro he
  rw [he, hc] at hd
  cases hd

theorem numTail_head (sign l : List Char) (j : Json) (r)
    (h : numTail sign l = some (j, r)) :
    ∃ d t', l = d :: t' ∧ d.isDigit = true := by
  cases l with
  | nil =>
    rw [show numTail sign ([] : List Char) = none from rfl] at h
    cases h
  | cons c t =>
    refine ⟨c, t, rfl, ?_⟩
    by_cases hc0 : c = '0'
    · subst hc0
      decide
    · rw [numTail.eq_1, if_neg hc0] at h
      by_cases hcd : c.isDigit = true
      · exact hcd
      · rw [Bool.not_eq_true] at hcd
        rw [if_neg (by simp [hcd])] at h
        cases h

theorem numTail_decomp (sign l : List Char) (j : Json) (r)
    (h : numTail sign l = some (j, r)) :
    ∃ cs, l = cs ++ r.1 ∧ cs ≠ [] ∧
      (∀ c, cs.head? = some c → c.isDigit = true) ∧
      (∀ c, cs.getLast? = some c → c.isDigit = true) := by
  obtain ⟨d, t, hl, hd⟩ := numTail_head sign l j r h
  subst hl
  rw [numTail.eq_1] at h
  by_cases hc0 : d = '0'
  · subst hc0
    rw [if_pos rfl] at h
    injection h with h2
    rw [Prod.mk.injEq] at h2
    refine ⟨'0' :: ((numFrac t).1 ++ (numExp (numFrac t).2.1).1),
      ?_, by simp, ?_, ?_⟩
    · rw [← h2.2]
      show '0' :: t = '0' :: (((numFrac t).1 ++ (numExp (numFrac t).2.1).1)
        ++ (numExp (numFrac t).2.1).2.1)
      refine congrArg (List.cons '0') ?_
      rw [List.append_assoc, ← numExp_decomp ((numFrac t).2.1),
        ← numFrac_decomp t]
    · intro c hc
      rw [List.head?_cons, Option.some.injEq] at hc
      exact hc ▸ (by decide : ('0' : Char).isDigit = true)
    · show ∀ c, (['0'] ++ ((numFrac t).1
          ++ (numExp (numFrac t).2.1).1)).getLast? = some c → c.isDigit = true
      exact getLast?_append_pred _ ['0'] _
        (getLast?_singleton_pred _ '0' (by decide))
        (getLast?_append_pred _ _ _ (numFrac_last t)
          (numExp_last (numFrac t).2.1))
  · rw [if_neg hc0, if_pos hd] at h
    injection h with h2
    rw [Prod.mk.injEq] at h2
    refine ⟨d :: (t.takeWhile Char.isDigit
        ++ (numFrac (t.dropWhile Char.isDigit)).1
        ++ (numExp (numFrac (t.dropWhile Char.isDigit)).2.1).1),
      ?_, by simp, ?_, ?_⟩
    · rw [← h2.2]
      show d :: t = d :: ((t.takeWhile Char.isDigit
          ++ (numFrac (t.dropWhile Char.isDigit)).1
          ++ (numExp (numFrac (t.dropWhile Char.isDigit)).2.1).1)
        ++ (numExp (numFrac (t.dropWhile Char.isDigit)).2.1).2.1)
      refine congrArg (List.cons d) ?_
      rw [List.append_assoc, List.append_assoc,
        ← numExp_decomp ((numFrac (t.dropWhile Char.isDigit)).2.1),
        ← numFrac_decomp (t.dropWhile Char.isDigit),
        List.takeWhile_append_dropWhile]
    · intro c hc
      rw [List.head?_cons, Option.some.injEq] at hc
      exact hc ▸ hd
    · show ∀ c, ([d] ++ (t.takeWhile Char.isDigit
          ++ (numFrac (t.dropWhile Char.isDigit)).1
          ++ (numExp (numFrac (t.dropWhile Char.isDigit)).2.1).1)).getLast?
            = some c → c.isDigit = true
      exact getLast?_append_pred _ [d] _
        (getLast?_singleton_pred _ d hd)
        (getLast?_append_pred _ _ _
          (getLast?_append_pred _ _ _ (takeWhile_getLast_digit t)
            (numFrac_last (t.dropWhile Char.isDigit)))
          (numExp_last (numFrac (t.dropWhile Char.isDigit)).2.1))

theorem numTail_local (sign a r2 s : List Char) (j : Json) (r)
    (hws : r2.all isJsonWs = true)
    (h : numTail sign (a ++ r2) = some (j, r)) (hrr : r.1 = s ++ r2) :
    ∃ rz, numTail sign a = some (j, rz) ∧ rz.1 = s := by
  have hrh := all_head_facts r2 hws
  cases a with
  | nil =>
    have h' : numTail sign r2 = some (j, ⟨r.1, r.2⟩) := h
    obtain ⟨d, t', hl, hd⟩ := numTail_head sign r2 j _ h'
    have hfacts := hrh d (by rw [hl]; rfl)
    rw [hfacts.1] at hd
    cases hd
  | cons c t =>
    have h' : numTail sign (c :: (t ++ r2)) = some (j, ⟨r.1, r.2⟩) := h
    rw [numTail.eq_1] at h'
    by_cases hc0 : c = '0'
    · subst hc0
      rw [if_pos rfl] at h'
      injection h' with h2
      rw [Prod.mk.injEq] at h2
      have hj := h2.1
      have hX : (numExp (numFrac (t ++ r2)).2.1).2.1 = r.1 :=
        congrArg Subtype.val h2.2
      have hF := numFrac_append t r2 hrh
      have hE := numExp_append ((numFrac t).2.1) r2 hrh
      rw [hF.2, hE.2, hrr] at hX
      have hz := List.append_cancel_right hX
      rw [hF.1, hF.2, hE.1] at hj
      refine ⟨⟨(numExp (numFrac t).2.1).2.1, ?_⟩, ?_, hz⟩
      · have hb1 := (numFrac t).2.2
        have hb2 := (numExp (numFrac t).2.1).2.2
        simp only [List.length_cons]
        omega
      · rw [numTail.eq_1, if_pos rfl, ← hj]
    · have hd : c.isDigit = true := by
        by_cases hdd : c.isDigit = true
        · exact hdd
        · rw [Bool.not_eq_true] at hdd
          rw [if_neg hc0, if_neg (by simp [hdd])] at h'
          cases h'
      rw [if_neg hc0, if_pos hd] at h'
      injection h' with h2
      rw [Prod.mk.injEq] at h2
      have hj := h2.1
      have hX : (numExp (numFrac
            ((t ++ r2).dropWhile Char.isDigit)).2.1).2.1 = r.1 :=
        congrArg Subtype.val h2.2
      have hT := takeWhile_digit_append t r2 (fun c2 hc2 => (hrh c2 hc2).1)
      have hF := numFrac_append (t.dropWhile Char.isDigit) r2 hrh
      have hE := numExp_append ((numFrac (t.dropWhile Char.isDigit)).2.1) r2 hrh
      rw [hT.2, hF.2, hE.2, hrr] at hX
      have hz := List.append_cancel_right hX
      rw [hT.1, hT.2, hF.1, hF.2, hE.1] at hj
      refine ⟨⟨(numExp (numFrac (t.dropWhile Char.isDigit)).2.1).2.1, ?_⟩,
        ?_, hz⟩
      · have hb0 := (List.dropWhile_suffix Char.isDigit (l := t)).length_le
        have hb1 := (numFrac (t.dropWhile Char.isDigit)).2.2
        have hb2 := (numExp (numFrac (t.dropWhile Char.isDigit)).2.1).2.2
        simp only [List.length_cons]
        omega
      · rw [numTail.eq_1, if_neg hc0, if_pos hd, ← hj]

theorem parseAtom_decomp (l : List Char) (j : Json) (r)
    (h : parseAtom l = some (j, r)) :
    ∃ cs, l = cs ++ r.1 ∧ cs ≠ [] ∧
      (∀ c, cs.head? = some c → isPyWs c = false) ∧
      (∀ c, cs.getLast? = some c → isPyWs c = false) := by
  rw [parseAtom.eq_1] at h
  split at h
  · rename_i r0 hsp
    injection h with h2
    rw [Prod.mk.injEq] at h2
    have hdec := stripPrefixChars_decomp _ l r0 hsp
    have hval : r0.1 = r.1 := congrArg Subtype.val h2.2
    refine ⟨['n', 'u', 'l', 'l'], by rw [← hval]; exact hdec, by simp, ?_, ?_⟩
    · intro c hc
      rw [show (['n', 'u', 'l', 'l'] : List Char).head? = some 'n' from rfl,
        Option.some.injEq] at hc
      exact hc ▸ (by decide : isPyWs 'n' = false)
    · intro c hc
      rw [show (['n', 'u', 'l', 'l'] : List Char).getLast? = some 'l' from rfl,
        Option.some.injEq] at hc
      exact hc ▸ (by decide : isPyWs 'l' = false)
  split at h
  · rename_i r0 hsp
    injection h with h2
    rw [Prod.mk.injEq] at h2
    have hdec := stripPrefixChars_decomp _ l r0 hsp
    have hval : r0.1 = r.1 := congrArg Subtype.val h2.2
    refine ⟨['t', 'r', 'u', 'e'], by rw [← hval]; exact hdec, by simp, ?_, ?_⟩
    · intro c hc
      rw [show (['t', 'r', 'u', 'e'] : List Char).head? = some 't' from rfl,
        Option.some.injEq] at hc
      exact hc ▸ (by decide : isPyWs 't' = false)
    · intro c hc
      rw [show (['t', 'r', 'u', 'e'] : List Char).getLast? = some 'e' from rfl,
        Option.some.injEq] at hc
      exact hc ▸ (by decide : isPyWs 'e' = false)
  split at h
  · rename_i r0 hsp
    injection h with h2
    rw [Prod.mk.injEq] at h2
    have hdec := stripPrefixChars_decomp _ l r0 hsp
    have hval : r0.1 = r.1 := congrArg Subtype.val h2.2
    refine ⟨['f', 'a', 'l', 's', 'e'], by rw [← hval]; exact hdec, by simp,
      ?_, ?_⟩
    · intro c hc
      rw [show (['f', 'a', 'l', 's', 'e'] : List Char).head? = some 'f'
          from rfl, Option.some.injEq] at hc
      exact hc ▸ (by decide : isPyWs 'f' = false)
    · intro c hc
      rw [show (['f', 'a', 'l', 's', 'e'] : List Char).getLast? = some 'e'
          from rfl, Option.some.injEq] at hc
      exact hc ▸ (by decide : isPyWs 'e' = false)
  split at h
  · rename_i r0 hsp
    injection h with h2
    rw [Prod.mk.injEq] at h2
    have hdec := stripPrefixChars_decomp _ l r0 hsp
    have hval : r0.1 = r.1 := congrArg Subtype.val h2.2
    refine ⟨['N', 'a', 'N'], by rw [← hval]; exact hdec, by simp, ?_, ?_⟩
    · intro c hc
      rw [show (['N', 'a', 'N'] : List Char).head? = some 'N' from rfl,
        Option.some.injEq] at hc
      exact hc ▸ (by decide : isPyWs 'N' = false)
    · intro c hc
      rw [show (['N', 'a', 'N'] : List Char).getLast? = some 'N' from rfl,
        Option.some.injEq] at hc
      exact hc ▸ (by decide : isPyWs 'N' = false)
  split at h
  · rename_i r0 hsp
    injection h with h2
    rw [Prod.mk.injEq] at h2
    have hdec := stripPrefixChars_decomp _ l r0 hsp
    have hval : r0.1 = r.1 := congrArg Subtype.val h2.2
    refine ⟨['I', 'n', 'f', 'i', 'n', 'i', 't', 'y'],
      by rw [← hval]; exact hdec, by simp, ?_, ?_⟩
    · intro c hc
      rw [show (['I', 'n', 'f', 'i', 'n', 'i', 't', 'y'] : List Char).head?
          = some 'I' from rfl, Option.some.injEq] at hc
      exact hc ▸ (by decide : isPyWs 'I' = false)
    · intro c hc
      rw [show (['I', 'n', 'f', 'i', 'n', 'i', 't', 'y'] : List Char).getLast?
          = some 'y' from rfl, Option.some.injEq] at hc
      exact hc ▸ (by decide : isPyWs 'y' = false)
  split at h
  · rename_i r0 hsp
    injection h with h2
    rw [Prod.mk.injEq] at h2
    have hdec := stripPrefixChars_decomp _ l r0 hsp
    have hval : r0.1 = r.1 := congrArg Subtype.val h2.2
    refine ⟨['-', 'I', 'n', 'f', 'i', 'n', 'i', 't', 'y'],
      by rw [← hval]; exact hdec, by simp, ?_, ?_⟩
    · intro c hc
      rw [show (['-', 'I', 'n', 'f', 'i', 'n', 'i', 't', 'y']
          : List Char).head? = some '-' from rfl, Option.some.injEq] at hc
      exact hc ▸ (by decide : isPyWs '-' = false)
    · intro c hc
      rw [show (['-', 'I', 'n', 'f', 'i', 'n', 'i', 't', 'y']
          : List Char).getLast? = some 'y' from rfl, Option.some.injEq] at hc
      exact hc ▸ (by decide : isPyWs 'y' = false)
  split at h
  · rename_i r0 hsp
    rcases Option.map_eq_some'.mp h with ⟨⟨j1, rr1⟩, hnt, heq⟩
    rw [Prod.mk.injEq] at heq
    have hval : rr1.1 = r.1 := congrArg Subtype.val heq.2
    have hdec := stripPrefixChars_decomp _ l r0 hsp
    obtain ⟨cs0, hcs0, hne0, hhead0, hlast0⟩ :=
      numTail_decomp ['-'] r0.1 j1 rr1 hnt
    refine ⟨'-' :: cs0, ?_, by simp, ?_, ?_⟩
    · refine hdec.trans ?_
      rw [hcs0, ← hval]
      rfl
    · intro c hc
      rw [List.head?_cons, Option.some.injEq] at hc
      exact hc ▸ (by decide : isPyWs '-' = false)
    · intro c hc
      rw [show ('-' :: cs0) = ['-'] ++ cs0 from rfl,
        List.getLast?_append_of_ne_nil _ hne0] at hc
      exact digit_not_pyWs c (hlast0 c hc)
  · obtain ⟨cs0, hcs0, hne0, hhead0, hlast0⟩ := numTail_decomp [] l j r h
    exact ⟨cs0, hcs0, hne0,
      fun c hc => digit_not_pyWs c (hhead0 c hc),
      fun c hc => digit_not_pyWs c (hlast0 c hc)⟩

theorem parseAtom_local (a r2 s : List Char) (j : Json) (r)
    (hws : r2.all isJsonWs = true)
    (h : parseAtom (a ++ r2) = some (j, r)) (hrr : r.1 = s ++ r2) :
    ∃ rz, parseAtom a = some (j, rz) ∧ rz.1 = s := by
  have hrh := all_head_facts r2 hws
  rw [parseAtom.eq_1] at h
  split at h
  · rename_i r0 hsp
    injection h with h2
    rw [Prod.mk.injEq] at h2
    have hdec := stripPrefixChars_decomp _ _ r0 hsp
    have hr0 : r0.1 = s ++ r2 := (congrArg Subtype.val h2.2).trans hrr
    rw [hr0, ← List.append_assoc] at hdec
    have ha := List.append_cancel_right hdec
    subst ha
    refine ⟨⟨s, by
      simp only [List.length_append, List.length_cons, List.length_nil]
      omega⟩, ?_, rfl⟩
    rw [← h2.1]
    rfl
  split at h
  · rename_i r0 hsp
    injection h with h2
    rw [Prod.mk.injEq] at h2
    have hdec := stripPrefixChars_decomp _ _ r0 hsp
    have hr0 : r0.1 = s ++ r2 := (congrArg Subtype.val h2.2).trans hrr
    rw [hr0, ← List.append_assoc] at hdec
    have ha := List.append_cancel_right hdec
    subst ha
    refine ⟨⟨s, by
      simp only [List.length_append, List.length_cons, List.length_nil]
      omega⟩, ?_, rfl⟩
    rw [← h2.1]
    rfl
  split at h
  · rename_i r0 hsp
    injection h with h2
    rw [Prod.mk.injEq] at h2
    have hdec := stripPrefixChars_decomp _ _ r0 hsp
    have hr0 : r0.1 = s ++ r2 := (congrArg Subtype.val h2.2).trans hrr
    rw [hr0, ← List.append_assoc] at hdec
    have ha := List.append_cancel_right hdec
    subst ha
    refine ⟨⟨s, by
      simp only [List.length_append, List.length_cons, List.length_nil]
      omega⟩, ?_, rfl⟩
    rw [← h2.1]
    rfl
  split at h
  · rename_i r0 hsp
    injection h with h2
    rw [Prod.mk.injEq] at h2
    have hdec := stripPrefixChars_decomp _ _ r0 hsp
    have hr0 : r0.1 = s ++ r2 := (congrArg Subtype.val h2.2).trans hrr
    rw [hr0, ← List.append_assoc] at hdec
    have ha := List.append_cancel_right hdec
    subst ha
    refine ⟨⟨s, by
      simp only [List.length_append, List.length_cons, List.length_nil]
      omega⟩, ?_, rfl⟩
    rw [← h2.1]
    rfl
  split at h
  · rename_i r0 hsp
    injection h with h2
    rw [Prod.mk.injEq] at h2
    have hdec := stripPrefixChars_decomp _ _ r0 hsp
    have hr0 : r0.1 = s ++ r2 := (congrArg Subtype.val h2.2).trans hrr
    rw [hr0, ← List.append_assoc] at hdec
    have ha := List.append_cancel_right hdec
    subst ha
    refine ⟨⟨s, by
      simp only [List.length_append, List.length_cons, List.length_nil]
      omega⟩, ?_, rfl⟩
    rw [← h2.1]
    rfl
  split at h
  · rename_i r0 hsp
    injection h with h2
    rw [Prod.mk.injEq] at h2
    have hdec := stripPrefixChars_decomp _ _ r0 hsp
    have hr0 : r0.1 = s ++ r2 := (congrArg Subtype.val h2.2).trans hrr
    rw [hr0, ← List.append_assoc] at hdec
    have ha := List.append_cancel_right hdec
    subst ha
    refine ⟨⟨s, by
      simp only [List.length_append, List.length_cons, List.length_nil]
      omega⟩, ?_, rfl⟩
    rw [← h2.1]
    rfl
  split at h
  · rename_i r0 hsp
    obtain ⟨r0v, r0pf⟩ := r0
    rcases Option.map_eq_some'.mp h with ⟨⟨j1, rr1⟩, hnt, heq⟩
    rw [Prod.mk.injEq] at heq
    have hval : rr1.1 = r.1 := congrArg Subtype.val heq.2
    have hdec := stripPrefixChars_decomp _ _ _ hsp
    cases a with
    | nil =>
      have hdec2 : r2 = '-' :: r0v := hdec
      have hfacts := hrh '-' (by rw [hdec2]; rfl)
      exact absurd rfl hfacts.2.2.2.2.2
    | cons c0 a' =>
      have hdec' : c0 :: (a' ++ r2) = '-' :: r0v := hdec
      rw [List.cons.injEq] at hdec'
      obtain ⟨hc0, hr0⟩ := hdec'
      subst hc0
      subst hr0
      obtain ⟨rz1, hnt2, hz1⟩ :=
        numTail_local ['-'] a' r2 s j1 rr1 hws hnt (hval.trans hrr)
      obtain ⟨d, a'', hda, hdd⟩ := numTail_head ['-'] a' j1 rz1 hnt2
      subst hda
      have hdI : ¬ ('I' = d) := ne_digit_sym d 'I' hdd (by decide)
      have e1 : stripPrefixChars ['n', 'u', 'l', 'l'] ('-' :: d :: a'')
          = none := rfl
      have e2 : stripPrefixChars ['t', 'r', 'u', 'e'] ('-' :: d :: a'')
          = none := rfl
      have e3 : stripPrefixChars ['f', 'a', 'l', 's', 'e'] ('-' :: d :: a'')
          = none := rfl
      have e4 : stripPrefixChars ['N', 'a', 'N'] ('-' :: d :: a'')
          = none := rfl
      have e5 : stripPrefixChars ['I', 'n', 'f', 'i', 'n', 'i', 't', 'y']
          ('-' :: d :: a'') = none := rfl
      have e6 : stripPrefixChars ['-', 'I', 'n', 'f', 'i', 'n', 'i', 't', 'y']
          ('-' :: d :: a'') = none := by
        rw [stripPrefixChars.eq_3, if_pos rfl,
          stripPrefixChars_ne 'I' _ d _ hdI]
        rfl
      have e7 : stripPrefixChars ['-'] ('-' :: d :: a'')
          = some ⟨d :: a'', by simp⟩ := rfl
      refine ⟨⟨rz1.1, ?_⟩, ?_, hz1⟩
      · have hb := rz1.2
        simp only [List.length_cons] at hb ⊢
        omega
      · rw [parseAtom.eq_1]
        simp only [e1, e2, e3, e4, e5, e6, e7]
        rw [hnt2, ← heq.1]
        rfl
  · obtain ⟨rz1, hnt2, hz1⟩ := numTail_local [] a r2 s j r hws h hrr
    obtain ⟨d, a'', hda, hdd⟩ := numTail_head [] a j rz1 hnt2
    subst hda
    have e1 : stripPrefixChars ['n', 'u', 'l', 'l'] (d :: a'') = none :=
      stripPrefixChars_ne 'n' _ d _ (ne_digit_sym d 'n' hdd (by decide))
    have e2 : stripPrefixChars ['t', 'r', 'u', 'e'] (d :: a'') = none :=
      stripPrefixChars_ne 't' _ d _ (ne_digit_sym d 't' hdd (by decide))
    have e3 : stripPrefixChars ['f', 'a', 'l', 's', 'e'] (d :: a'') = none :=
      stripPrefixChars_ne 'f' _ d _ (ne_digit_sym d 'f' hdd (by decide))
    have e4 : stripPrefixChars ['N', 'a', 'N'] (d :: a'') = none :=
      stripPrefixChars_ne 'N' _ d _ (ne_digit_sym d 'N' hdd (by decide))
    have e5 : stripPrefixChars ['I', 'n', 'f', 'i', 'n', 'i', 't', 'y']
        (d :: a'') = none :=
      stripPrefixChars_ne 'I' _ d _ (ne_digit_sym d 'I' hdd (by decide))
    have e6 : stripPrefixChars ['-', 'I', 'n', 'f', 'i', 'n', 'i', 't', 'y']
        (d :: a'') = none :=
      stripPrefixChars_ne '-' _ d _ (ne_digit_sym d '-' hdd (by decide))
    have e7 : stripPrefixChars ['-'] (d :: a'') = none :=
      stripPrefixChars_ne '-' _ d _ (ne_digit_sym d '-' hdd (by decide))
    refine ⟨rz1, ?_, hz1⟩
    rw [parseAtom.eq_1]
    simp only [e1, e2, e3, e4, e5, e6, e7]
    exact hnt2

theorem getLast?_cons_of_ne_nil (c : Char) (l : List Char) (h : l ≠ []) :
    (c :: l).getLast? = l.getLast? := by
  show ([c] ++ l).getLast? = l.getLast?
  exact List.getLast?_append_of_ne_nil _ h

theorem append_ne_nil_right (a b : List Char) (h : b ≠ []) : a ++ b ≠ [] := by
  intro he
  rcases List.append_eq_nil.mp he with ⟨h1, h2⟩
  exact h h2

theorem tw_dw (p : Char → Bool) (l : List Char) :
    l = l.takeWhile p ++ l.dropWhile p :=
  (List.takeWhile_append_dropWhile p l).symm

set_option maxHeartbeats 1600000 in
/-- Decomposition of a successful scan: the consumed prefix is nonempty,
its first character is the value's leading token character (never Python
whitespace), and for member/element continuations the consumed text ends
at the closing brace/bracket. -/
theorem parse_decomp :
    ∀ n : Nat,
      (∀ l hle j r, parseValue n l hle = some (j, r) →
        ∃ cs, l = cs ++ r.1 ∧ cs ≠ [] ∧
          (∀ c, cs.head? = some c → isPyWs c = false) ∧
          (∀ c, cs.getLast? = some c → isPyWs c = false)) ∧
      (∀ acc l hle j r, parsePairs n acc l hle = some (j, r) →
        ∃ cs, l = cs ++ r.1 ∧ cs ≠ [] ∧ cs.getLast? = some '}') ∧
      (∀ acc l hle j r, parseElemsRest n acc l hle = some (j, r) →
        ∃ cs, l = cs ++ r.1 ∧ cs ≠ [] ∧ cs.getLast? = some ']') := by
  intro n
  induction n with
  | zero =>
    refine ⟨?_, ?_, ?_⟩
    · intro l hle j r h
      cases l with
      | nil =>
        rw [parseValue.eq_1] at h
        cases h
      | cons c rest => exact absurd hle (by simp)
    · intro acc l hle j r h
      rw [parsePairs.eq_1] at h
      cases h
    · intro acc l hle j r h
      rw [parseElemsRest.eq_1] at h
      cases h
  | succ n ih =>
    obtain ⟨ihV, ihP, ihE⟩ := ih
    refine ⟨?_, ?_, ?_⟩
    · intro l hle j r h
      cases l with
      | nil =>
        rw [parseValue.eq_1] at h
        cases h
      | cons c rest =>
        rw [parseValue.eq_3] at h
        by_cases hc1 : c = '{'
        · rw [if_pos hc1] at h
          subst hc1
          by_cases hb : headIs '}' (rest.dropWhile isJsonWs) = true
          · rw [if_pos hb] at h
            injection h with h2
            rw [Prod.mk.injEq] at h2
            have hval : (rest.dropWhile isJsonWs).tail = r.1 :=
              congrArg Subtype.val h2.2
            have hd := headIs_decomp '}' _ hb
            refine ⟨'{' :: (rest.takeWhile isJsonWs ++ ['}']), ?_,
              by simp, ?_, ?_⟩
            · rw [← hval]
              show '{' :: rest = '{' :: ((rest.takeWhile isJsonWs ++ ['}'])
                ++ (rest.dropWhile isJsonWs).tail)
              refine congrArg (List.cons '{') ?_
              rw [List.append_assoc]
              have h3 : (['}'] : List Char) ++ (rest.dropWhile isJsonWs).tail
                  = rest.dropWhile isJsonWs := hd.symm
              rw [h3, List.takeWhile_append_dropWhile]
            · intro c2 hc2
              rw [List.head?_cons, Option.some.injEq] at hc2
              exact hc2 ▸ (by decide : isPyWs '{' = false)
            · intro c2 hc2
              rw [getLast?_cons_of_ne_nil _ _
                  (append_ne_nil_right _ _ (by simp)),
                List.getLast?_append_of_ne_nil _ (by simp),
                show (['}'] : List Char).getLast? = some '}' from rfl,
                Option.some.injEq] at hc2
              exact hc2 ▸ (by decide : isPyWs '}' = false)
          · rw [if_neg hb] at h
            rcases Option.map_eq_some'.mp h with ⟨⟨j1, rr1⟩, hp, heq⟩
            have hval : rr1.1 = r.1 := congrArg (fun q => q.2.1) heq
            obtain ⟨csP, hcsP, hneP, hlastP⟩ := ihP [] _ _ j1 rr1 hp
            refine ⟨'{' :: (rest.takeWhile isJsonWs ++ csP), ?_,
              by simp, ?_, ?_⟩
            · rw [← hval]
              show '{' :: rest = '{' :: ((rest.takeWhile isJsonWs ++ csP)
                ++ rr1.1)
              refine congrArg (List.cons '{') ?_
              rw [List.append_assoc, ← hcsP, List.takeWhile_append_dropWhile]
            · intro c2 hc2
              rw [List.head?_cons, Option.some.injEq] at hc2
              exact hc2 ▸ (by decide : isPyWs '{' = false)
            · intro c2 hc2
              rw [getLast?_cons_of_ne_nil _ _ (append_ne_nil_right _ _ hneP),
                List.getLast?_append_of_ne_nil _ hneP, hlastP,
                Option.some.injEq] at hc2
              exact hc2 ▸ (by decide : isPyWs '}' = false)
        · rw [if_neg hc1] at h
          by_cases hc2c : c = '['
          · rw [if_pos hc2c] at h
            subst hc2c
            by_cases hb : headIs ']' (rest.dropWhile isJsonWs) = true
            · rw [if_pos hb] at h
              injection h with h2
              rw [Prod.mk.injEq] at h2
              have hval : (rest.dropWhile isJsonWs).tail = r.1 :=
                congrArg Subtype.val h2.2
              have hd := headIs_decomp ']' _ hb
              refine ⟨'[' :: (rest.takeWhile isJsonWs ++ [']']), ?_,
                by simp, ?_, ?_⟩
              · rw [← hval]
                show '[' :: rest = '[' :: ((rest.takeWhile isJsonWs ++ [']'])
                  ++ (rest.dropWhile isJsonWs).tail)
                refine congrArg (List.cons '[') ?_
                rw [List.append_assoc]
                have h3 : ([']'] : List Char)
                    ++ (rest.dropWhile isJsonWs).tail
                    = rest.dropWhile isJsonWs := hd.symm
                rw [h3, List.takeWhile_append_dropWhile]
              · intro c2 hc2
                rw [List.head?_cons, Option.some.injEq] at hc2
                exact hc2 ▸ (by decide : isPyWs '[' = false)
              · intro c2 hc2
                rw [getLast?_cons_of_ne_nil _ _
                    (append_ne_nil_right _ _ (by simp)),
                  List.getLast?_append_of_ne_nil _ (by simp),
                  show ([']'] : List Char).getLast? = some ']' from rfl,
                  Option.some.injEq] at hc2
                exact hc2 ▸ (by decide : isPyWs ']' = false)
            · rw [if_neg hb] at h
              split at h
              · cases h
              · rename_i v r1 hv
                rcases Option.map_eq_some'.mp h with ⟨⟨j1, rr1⟩, hp, heq⟩
                have hval : rr1.1 = r.1 := congrArg (fun q => q.2.1) heq
                obtain ⟨csV, hcsV, hneV, hheadV, hlastV⟩ :=
                  ihV _ _ v r1 hv
                obtain ⟨csE, hcsE, hneE, hlastE⟩ := ihE [v] _ _ j1 rr1 hp
                refine ⟨'[' :: (rest.takeWhile isJsonWs ++ (csV ++ csE)), ?_,
                  by simp, ?_, ?_⟩
                · rw [← hval]
                  show '[' :: rest
                    = '[' :: ((rest.takeWhile isJsonWs ++ (csV ++ csE))
                      ++ rr1.1)
                  refine congrArg (List.cons '[') ?_
                  rw [List.append_assoc, List.append_assoc, ← hcsE, ← hcsV,
                    List.takeWhile_append_dropWhile]
                · intro c2 hc2
                  rw [List.head?_cons, Option.some.injEq] at hc2
                  exact hc2 ▸ (by decide : isPyWs '[' = false)
                · intro c2 hc2
                  rw [getLast?_cons_of_ne_nil _ _ (append_ne_nil_right _ _
                      (append_ne_nil_right _ _ hneE)),
                    List.getLast?_append_of_ne_nil _
                      (append_ne_nil_right _ _ hneE),
                    List.getLast?_append_of_ne_nil _ hneE, hlastE,
                    Option.some.injEq] at hc2
                  exact hc2 ▸ (by decide : isPyWs ']' = false)
          · rw [if_neg hc2c] at h
            by_cases hc3 : c = '"'
            · rw [if_pos hc3] at h
              subst hc3
              rcases Option.map_eq_some'.mp h with ⟨⟨st, r1⟩, hsr, heq⟩
              have hval : r1.1 = r.1 := congrArg (fun q => q.2.1) heq
              obtain ⟨csK, hcsK, hneK, hlastK⟩ :=
                parseStringRest_decomp [] rest st r1 hsr
              refine ⟨'"' :: csK, ?_, by simp, ?_, ?_⟩
              · rw [← hval]
                show '"' :: rest = '"' :: (csK ++ r1.1)
                exact congrArg (List.cons '"') hcsK
              · intro c2 hc2
                rw [List.head?_cons, Option.some.injEq] at hc2
                exact hc2 ▸ (by decide : isPyWs '"' = false)
              · intro c2 hc2
                rw [getLast?_cons_of_ne_nil _ _ hneK, hlastK,
                  Option.some.injEq] at hc2
                exact hc2 ▸ (by decide : isPyWs '"' = false)
            · rw [if_neg hc3] at h
              exact parseAtom_decomp (c :: rest) j r h
    · intro acc l hle j r h
      rw [parsePairs.eq_2] at h
      split at h
      · rename_i hq0
        split at h
        · cases h
        · rename_i k r1 hsr
          split at h
          · rename_i hc0
            split at h
            · cases h
            · rename_i v r3 hv
              have hql := headIs_decomp '"' l hq0
              obtain ⟨csK, hcsK, hneK, hlastK⟩ :=
                parseStringRest_decomp [] l.tail k r1 hsr
              have hcol := headIs_decomp ':' _ hc0
              obtain ⟨csV, hcsV, hneV, hheadV, hlastV⟩ := ihV _ _ v r3 hv
              split at h
              · rename_i hcomma
                rcases Option.map_eq_some'.mp h with ⟨⟨j1, rr1⟩, hp, heq⟩
                have hval : rr1.1 = r.1 := congrArg (fun q => q.2.1) heq
                have hcom := headIs_decomp ',' _ hcomma
                obtain ⟨csR, hcsR, hneR, hlastR⟩ :=
                  ihP (objInsert acc k v) _ _ j1 rr1 hp
                refine ⟨'"' :: (csK ++ (r1.1.takeWhile isJsonWs ++ (':' ::
                  (((r1.1.dropWhile isJsonWs).tail).takeWhile isJsonWs ++
                  (csV ++ (r3.1.takeWhile isJsonWs ++ (',' ::
                  (((r3.1.dropWhile isJsonWs).tail).takeWhile isJsonWs ++
                  csR)))))))), ?_, by simp, ?_⟩
                · rw [← hval]
                  conv_lhs => rw [hql, hcsK, tw_dw isJsonWs r1.1, hcol,
                    tw_dw isJsonWs ((r1.1.dropWhile isJsonWs).tail), hcsV,
                    tw_dw isJsonWs r3.1, hcom,
                    tw_dw isJsonWs ((r3.1.dropWhile isJsonWs).tail), hcsR]
                  simp only [List.cons_append, List.append_assoc]
                · rw [getLast?_cons_of_ne_nil _ _ (by simp),
                    List.getLast?_append_of_ne_nil _ (by simp),
                    List.getLast?_append_of_ne_nil _ (by simp),
                    getLast?_cons_of_ne_nil _ _ (by simp),
                    List.getLast?_append_of_ne_nil _ (by simp),
                    List.getLast?_append_of_ne_nil _ (by simp),
                    List.getLast?_append_of_ne_nil _ (by simp),
                    getLast?_cons_of_ne_nil _ _ (by simp [hneR]),
                    List.getLast?_append_of_ne_nil _ hneR]
                  exact hlastR
              · split at h
                · rename_i hclose
                  injection h with h2
                  rw [Prod.mk.injEq] at h2
                  have hval : (r3.1.dropWhile isJsonWs).tail = r.1 :=
                    congrArg Subtype.val h2.2
                  have hclo := headIs_decomp '}' _ hclose
                  refine ⟨'"' :: (csK ++ (r1.1.takeWhile isJsonWs ++ (':' ::
                    (((r1.1.dropWhile isJsonWs).tail).takeWhile isJsonWs ++
                    (csV ++ (r3.1.takeWhile isJsonWs ++ ['}'])))))),
                    ?_, by simp, ?_⟩
                  · rw [← hval]
                    conv_lhs => rw [hql, hcsK, tw_dw isJsonWs r1.1, hcol,
                      tw_dw isJsonWs ((r1.1.dropWhile isJsonWs).tail), hcsV,
                      tw_dw isJsonWs r3.1, hclo]
                    simp only [List.cons_append, List.append_assoc,
                      List.nil_append]
                  · rw [getLast?_cons_of_ne_nil _ _ (by simp),
                      List.getLast?_append_of_ne_nil _ (by simp),
                      List.getLast?_append_of_ne_nil _ (by simp),
                      getLast?_cons_of_ne_nil _ _ (by simp),
                      List.getLast?_append_of_ne_nil _ (by simp),
                      List.getLast?_append_of_ne_nil _ (by simp),
                      List.getLast?_append_of_ne_nil _ (by simp)]
                    rfl
                · cases h
          · cases h
      · cases h
    · intro acc l hle j r h
      rw [parseElemsRest.eq_2] at h
      split at h
      · rename_i hcomma
        split at h
        · cases h
        · rename_i v r1 hv
          rcases Option.map_eq_some'.mp h with ⟨⟨j1, rr1⟩, hp, heq⟩
          have hval : rr1.1 = r.1 := congrArg (fun q => q.2.1) heq
          have hcom := headIs_decomp ',' _ hcomma
          obtain ⟨csV, hcsV, hneV, hheadV, hlastV⟩ := ihV _ _ v r1 hv
          obtain ⟨csE, hcsE, hneE, hlastE⟩ := ihE (acc ++ [v]) _ _ j1 rr1 hp
          refine ⟨l.takeWhile isJsonWs ++ (',' ::
            (((l.dropWhile isJsonWs).tail).takeWhile isJsonWs ++
            (csV ++ csE))), ?_,
            append_ne_nil_right _ _ (by simp), ?_⟩
          · rw [← hval]
            conv_lhs => rw [tw_dw isJsonWs l, hcom,
              tw_dw isJsonWs ((l.dropWhile isJsonWs).tail), hcsV, hcsE]
            simp only [List.cons_append, List.append_assoc]
          · rw [List.getLast?_append_of_ne_nil _ (by simp),
              getLast?_cons_of_ne_nil _ _ (by simp [hneE]),
              List.getLast?_append_of_ne_nil _ (by simp [hneE]),
              List.getLast?_append_of_ne_nil _ hneE]
            exact hlastE
      · split at h
        · rename_i hclose
          injection h with h2
          rw [Prod.mk.injEq] at h2
          have hval : (l.dropWhile isJsonWs).tail = r.1 :=
            congrArg Subtype.val h2.2
          have hclo := headIs_decomp ']' _ hclose
          refine ⟨l.takeWhile isJsonWs ++ [']'], ?_,
            append_ne_nil_right _ _ (by simp), ?_⟩
          · rw [← hval]
            conv_lhs => rw [tw_dw isJsonWs l, hclo]
            simp only [List.cons_append, List.append_assoc, List.nil_append]
          · rw [List.getLast?_append_of_ne_nil _ (by simp)]
            rfl
        · cases h

theorem head?_dropWhile_false (p : Char → Bool) (l : List Char) (a : Char)
    (h : (l.dropWhile p).head? = some a) : p a = false := by
  induction l with
  | nil => cases h
  | cons x xs ih =>
    rw [List.dropWhile_cons] at h
    by_cases hx : p x = true
    · rw [if_pos hx] at h
      exact ih h
    · rw [Bool.not_eq_true] at hx
      rw [if_neg (by simp [hx])] at h
      rw [List.head?_cons, Option.some.injEq] at h
      exact h ▸ hx

theorem dropWhile_pad (p : Char → Bool) (a : List Char) (x : Char)
    (Z : List Char) (ha : ∀ y ∈ a, p y = true) (hx : p x = false) :
    (a ++ (x :: Z)).dropWhile p = x :: Z := by
  rw [dropWhile_append_all p a _ ha, List.dropWhile_cons, hx]
  rfl

theorem headIs_eq (c x : Char) (t : List Char) (h : headIs c (x :: t) = true) :
    x = c := by
  simp only [headIs, decide_eq_true_eq] at h
  exact h

theorem not_jsonWs_of_not_pyWs (c : Char) (h : isPyWs c = false) :
    isJsonWs c = false := by
  by_contra hne
  rw [Bool.not_eq_false] at hne
  rw [isPyWs_of_isJsonWs c hne] at h
  cases h

theorem parseValue_cast (n : Nat) (l l2 : List Char) (hll : l = l2)
    (hle : l.length ≤ n) (hle2 : l2.length ≤ n) (j : Json) (rv : List Char)
    (h : ∃ pf, parseValue n l hle = some (j, ⟨rv, pf⟩)) :
    ∃ pf2, parseValue n l2 hle2 = some (j, ⟨rv, pf2⟩) := by
  subst hll
  obtain ⟨pf, h⟩ := h
  exact ⟨pf, h⟩

theorem parsePairs_cast (n : Nat) (acc : List (String × Json))
    (l l2 : List Char) (hll : l = l2)
    (hle : l.length ≤ n) (hle2 : l2.length ≤ n) (j : Json) (rv : List Char)
    (h : ∃ pf, parsePairs n acc l hle = some (j, ⟨rv, pf⟩)) :
    ∃ pf2, parsePairs n acc l2 hle2 = some (j, ⟨rv, pf2⟩) := by
  subst hll
  obtain ⟨pf, h⟩ := h
  exact ⟨pf, h⟩

theorem parseElemsRest_cast (n : Nat) (acc : List Json)
    (l l2 : List Char) (hll : l = l2)
    (hle : l.length ≤ n) (hle2 : l2.length ≤ n) (j : Json) (rv : List Char)
    (h : ∃ pf, parseElemsRest n acc l hle = some (j, ⟨rv, pf⟩)) :
    ∃ pf2, parseElemsRest n acc l2 hle2 = some (j, ⟨rv, pf2⟩) := by
  subst hll
  obtain ⟨pf, h⟩ := h
  exact ⟨pf, h⟩


set_option maxHeartbeats 1600000 in
theorem parse_local :
    ∀ n : Nat,
      (∀ a r0 hle j r s, parseValue n (a ++ r0) hle = some (j, r) →
        r0.all isJsonWs = true → r.1 = s ++ r0 →
        ∀ m (hm : a.length ≤ m),
          ∃ rz, parseValue m a hm = some (j, rz) ∧ rz.1 = s) ∧
      (∀ acc a r0 hle j r s, parsePairs n acc (a ++ r0) hle = some (j, r) →
        r0.all isJsonWs = true → r.1 = s ++ r0 →
        ∀ m (hm : a.length ≤ m),
          ∃ rz, parsePairs m acc a hm = some (j, rz) ∧ rz.1 = s) ∧
      (∀ acc a r0 hle j r s, parseElemsRest n acc (a ++ r0) hle = some (j, r) →
        r0.all isJsonWs = true → r.1 = s ++ r0 →
        ∀ m (hm : a.length ≤ m),
          ∃ rz, parseElemsRest m acc a hm = some (j, rz) ∧ rz.1 = s) := by
  intro n
  induction n with
  | zero =>
    refine ⟨?_, ?_, ?_⟩
    · intro a r0 hle j r s h hws hrr m hm
      cases a with
      | nil =>
        cases r0 with
        | nil =>
          have h2 : parseValue 0 ([] : List Char) (by simp)
              = some (j, ⟨r.1, r.2⟩) := h
          rw [parseValue.eq_1] at h2
          cases h2
        | cons x xs =>
          exact absurd hle (by
            simp only [List.nil_append, List.length_cons]
            omega)
      | cons c ta =>
        exact absurd hle (by
          simp only [List.cons_append, List.length_cons]
          omega)
    · intro acc a r0 hle j r s h hws hrr m hm
      rw [parsePairs.eq_1] at h
      cases h
    · intro acc a r0 hle j r s h hws hrr m hm
      rw [parseElemsRest.eq_1] at h
      cases h
  | succ n ih =>
    obtain ⟨ihV, ihP, ihE⟩ := ih
    refine ⟨?_, ?_, ?_⟩
    · intro a r0 hle j r s h hws hrr m hm
      obtain ⟨cs0, hcs0, hne0, hhead0, hlast0⟩ :=
        (parse_decomp (n + 1)).1 _ hle j r h
      have hx : a ++ r0 = (cs0 ++ s) ++ r0 := by
        rw [List.append_assoc, ← hrr]
        exact hcs0
      have ha : a = cs0 ++ s := List.append_cancel_right hx
      have hane : a ≠ [] := by
        rw [ha]
        intro h0
        rcases List.append_eq_nil.mp h0 with ⟨h1, _⟩
        exact hne0 h1
      cases a with
      | nil => exact absurd rfl hane
      | cons c ta =>
      cases m with
      | zero => simp at hm
      | succ m =>
      have h2 : parseValue (n + 1) (c :: (ta ++ r0)) hle
          = some (j, ⟨r.1, r.2⟩) := h
      rw [parseValue.eq_3] at h2
      by_cases hc1 : c = '{'
      · rw [if_pos hc1] at h2
        subst hc1
        by_cases hb : headIs '}' ((ta ++ r0).dropWhile isJsonWs) = true
        · rw [if_pos hb] at h2
          injection h2 with h3
          rw [Prod.mk.injEq] at h3
          have hval : ((ta ++ r0).dropWhile isJsonWs).tail = s ++ r0 :=
            (congrArg Subtype.val h3.2).trans hrr
          by_cases hta : ta.dropWhile isJsonWs = []
          · have hdwa : (ta ++ r0).dropWhile isJsonWs = [] := by
              rw [List.dropWhile_append, if_pos (by simp [hta]),
                dropWhile_all_nil _ _ hws]
            rw [hdwa] at hb
            exact absurd hb (by decide)
          · have hdwa : (ta ++ r0).dropWhile isJsonWs
                = ta.dropWhile isJsonWs ++ r0 :=
              dropWhile_append_left _ _ _ hta
            rw [hdwa, headIs_append_left _ _ _ hta] at hb
            obtain ⟨T, hT⟩ : ∃ T, ta.dropWhile isJsonWs = '}' :: T :=
              ⟨_, headIs_decomp '}' _ hb⟩
            have hval2 : T ++ r0 = s ++ r0 := by
              rw [← hval, hdwa, hT]
              rfl
            have hTs : T = s := List.append_cancel_right hval2
            have hTtail : (ta.dropWhile isJsonWs).tail = s := by
              rw [hT]
              exact hTs
            refine ⟨⟨(ta.dropWhile isJsonWs).tail, ?_⟩, ?_, hTtail⟩
            · have h5 := (List.dropWhile_suffix isJsonWs (l := ta)).length_le
              have h6 := List.length_tail (ta.dropWhile isJsonWs)
              simp only [List.length_cons]
              omega
            · rw [parseValue.eq_3, if_pos rfl, if_pos hb, ← h3.1]
        · rw [if_neg hb] at h2
          rcases Option.map_eq_some'.mp h2 with ⟨⟨j1, rr1⟩, hp, heq⟩
          have hj1 : j1 = j := congrArg Prod.fst heq
          have hvalR : rr1.1 = s ++ r0 :=
            (congrArg (fun q => q.2.1) heq).trans hrr
          by_cases hta : ta.dropWhile isJsonWs = []
          · have hdwa : (ta ++ r0).dropWhile isJsonWs = [] := by
              rw [List.dropWhile_append, if_pos (by simp [hta]),
                dropWhile_all_nil _ _ hws]
            have h5 := rr1.2
            have h6 : ((ta ++ r0).dropWhile isJsonWs).length = 0 := by
              rw [hdwa]
              rfl
            exact absurd h5 (by omega)
          · have hdwa : (ta ++ r0).dropWhile isJsonWs
                = ta.dropWhile isJsonWs ++ r0 :=
              dropWhile_append_left _ _ _ hta
            rw [hdwa, headIs_append_left _ _ _ hta] at hb
            have hleD : (ta.dropWhile isJsonWs ++ r0).length ≤ n := by
              have h5 := (List.dropWhile_suffix isJsonWs (l := ta)).length_le
              have h6 := hle
              simp only [List.cons_append, List.length_cons,
                List.length_append] at h6 ⊢
              omega
            obtain ⟨pf2, hp2⟩ :=
              parsePairs_cast n [] _ _ hdwa _ hleD j1 rr1.1 ⟨rr1.2, hp⟩
            have hmP : (ta.dropWhile isJsonWs).length ≤ m := by
              have h5 := (List.dropWhile_suffix isJsonWs (l := ta)).length_le
              have h6 := hm
              simp only [List.length_cons] at h6
              omega
            obtain ⟨rzP, hpz, hz⟩ :=
              ihP [] (ta.dropWhile isJsonWs) r0 hleD j1 ⟨rr1.1, pf2⟩ s hp2
                hws hvalR m hmP
            refine ⟨⟨rzP.1, ?_⟩, ?_, hz⟩
            · have h5 := rzP.2
              have h6 := (List.dropWhile_suffix isJsonWs (l := ta)).length_le
              simp only [List.length_cons]
              omega
            · rw [parseValue.eq_3, if_pos rfl, if_neg hb, hpz,
                Option.map_some', ← hj1]
      · rw [if_neg hc1] at h2
        by_cases hc2 : c = '['
        · rw [if_pos hc2] at h2
          subst hc2
          by_cases hb : headIs ']' ((ta ++ r0).dropWhile isJsonWs) = true
          · rw [if_pos hb] at h2
            injection h2 with h3
            rw [Prod.mk.injEq] at h3
            have hval : ((ta ++ r0).dropWhile isJsonWs).tail = s ++ r0 :=
              (congrArg Subtype.val h3.2).trans hrr
            by_cases hta : ta.dropWhile isJsonWs = []
            · have hdwa : (ta ++ r0).dropWhile isJsonWs = [] := by
                rw [List.dropWhile_append, if_pos (by simp [hta]),
                  dropWhile_all_nil _ _ hws]
              rw [hdwa] at hb
              exact absurd hb (by decide)
            · have hdwa : (ta ++ r0).dropWhile isJsonWs
                  = ta.dropWhile isJsonWs ++ r0 :=
                dropWhile_append_left _ _ _ hta
              rw [hdwa, headIs_append_left _ _ _ hta] at hb
              obtain ⟨T, hT⟩ : ∃ T, ta.dropWhile isJsonWs = ']' :: T :=
                ⟨_, headIs_decomp ']' _ hb⟩
              have hval2 : T ++ r0 = s ++ r0 := by
                rw [← hval, hdwa, hT]
                rfl
              have hTs : T = s := List.append_cancel_right hval2
              have hTtail : (ta.dropWhile isJsonWs).tail = s := by
                rw [hT]
                exact hTs
              refine ⟨⟨(ta.dropWhile isJsonWs).tail, ?_⟩, ?_, hTtail⟩
              · have h5 := (List.dropWhile_suffix isJsonWs (l := ta)).length_le
                have h6 := List.length_tail (ta.dropWhile isJsonWs)
                simp only [List.length_cons]
                omega
              · rw [parseValue.eq_3, if_neg (by decide), if_pos rfl,
                  if_pos hb, ← h3.1]
          · rw [if_neg hb] at h2
            split at h2
            · cases h2
            · rename_i v r1 hv
              rcases Option.map_eq_some'.mp h2 with ⟨⟨j1, rr1⟩, hp, heq⟩
              have hj1 : j1 = j := congrArg Prod.fst heq
              have hvalR : rr1.1 = s ++ r0 :=
                (congrArg (fun q => q.2.1) heq).trans hrr
              obtain ⟨csE, hcsE, hneE, hlastE⟩ :=
                (parse_decomp n).2.2 [v] _ _ j1 rr1 hp
              by_cases hta : ta.dropWhile isJsonWs = []
              · have hdwa : (ta ++ r0).dropWhile isJsonWs = [] := by
                  rw [List.dropWhile_append, if_pos (by simp [hta]),
                    dropWhile_all_nil _ _ hws]
                have h5 := r1.2
                have h6 : ((ta ++ r0).dropWhile isJsonWs).length = 0 := by
                  rw [hdwa]
                  rfl
                exact absurd h5 (by omega)
              · have hdwa : (ta ++ r0).dropWhile isJsonWs
                    = ta.dropWhile isJsonWs ++ r0 :=
                  dropWhile_append_left _ _ _ hta
                rw [hdwa, headIs_append_left _ _ _ hta] at hb
                have hr1form : r1.1 = (csE ++ s) ++ r0 := by
                  rw [hcsE, hvalR, List.append_assoc]
                have hleD : (ta.dropWhile isJsonWs ++ r0).length ≤ n := by
                  have h5 :=
                    (List.dropWhile_suffix isJsonWs (l := ta)).length_le
                  have h6 := hle
                  simp only [List.cons_append, List.length_cons,
                    List.length_append] at h6 ⊢
                  omega
                obtain ⟨pfv, hv2⟩ :=
                  parseValue_cast n _ _ hdwa _ hleD v r1.1 ⟨r1.2, hv⟩
                have hmV : (ta.dropWhile isJsonWs).length ≤ m := by
                  have h5 :=
                    (List.dropWhile_suffix isJsonWs (l := ta)).length_le
                  have h6 := hm
                  simp only [List.length_cons] at h6
                  omega
                obtain ⟨rzV, hvz, hzV⟩ :=
                  ihV (ta.dropWhile isJsonWs) r0 hleD v ⟨r1.1, pfv⟩
                    (csE ++ s) hv2 hws hr1form m hmV
                have hleE : ((csE ++ s) ++ r0).length ≤ n := by
                  rw [← hr1form]
                  have h5 := r1.2
                  have h6 := hleD
                  have h7 : ((ta ++ r0).dropWhile isJsonWs).length
                      = (ta.dropWhile isJsonWs ++ r0).length := by
                    rw [hdwa]
                  omega
                obtain ⟨pfe, hp2⟩ :=
                  parseElemsRest_cast n [v] _ _ hr1form _ hleE j1 rr1.1
                    ⟨rr1.2, hp⟩
                have hmE : (csE ++ s).length ≤ m := by
                  have h5 := rzV.2
                  rw [hzV] at h5
                  have h6 := hmV
                  omega
                obtain ⟨rzE, hez, hzE⟩ :=
                  ihE [v] (csE ++ s) r0 hleE j1 ⟨rr1.1, pfe⟩ s hp2 hws
                    hvalR m hmE
                obtain ⟨rzVv, rzVpf⟩ := rzV
                have hzV2 : rzVv = csE ++ s := hzV
                subst hzV2
                refine ⟨⟨rzE.1, ?_⟩, ?_, hzE⟩
                · have h5 := rzE.2
                  have h6 := rzVpf
                  have h7 := (List.dropWhile_suffix isJsonWs
                    (l := ta)).length_le
                  simp only [List.length_cons, List.length_append] at h5 h6 ⊢
                  omega
                · rw [parseValue.eq_3, if_neg (by decide), if_pos rfl,
                    if_neg hb]
                  simp only [hvz, hez, Option.map_some', ← hj1]
        · rw [if_neg hc2] at h2
          by_cases hc3 : c = '"'
          · rw [if_pos hc3] at h2
            subst hc3
            rcases Option.map_eq_some'.mp h2 with ⟨⟨st, r1⟩, hsr, heq⟩
            have hjs : Json.str st = j := congrArg Prod.fst heq
            have hval : r1.1 = s ++ r0 :=
              (congrArg (fun q => q.2.1) heq).trans hrr
            obtain ⟨csK, hcsK, hneK, hlastK⟩ :=
              parseStringRest_decomp [] (ta ++ r0) st r1 hsr
            have hxx : ta ++ r0 = (csK ++ s) ++ r0 := by
              rw [hcsK, hval, List.append_assoc]
            have hta2 : ta = csK ++ s := List.append_cancel_right hxx
            subst hta2
            obtain ⟨rzK, hKz, hKrem⟩ :=
              parseStringRest_local [] ((csK ++ s) ++ r0) st r1 csK s hsr hcsK
            refine ⟨⟨rzK.1, ?_⟩, ?_, hKrem⟩
            · have h5 := rzK.2
              simp only [List.length_cons, List.length_append] at h5 ⊢
              omega
            · rw [parseValue.eq_3, if_neg (by decide), if_neg (by decide),
                if_pos rfl]
              simp only [hKz, Option.map_some', ← hjs]
          · rw [if_neg hc3] at h2
            have h4 : parseAtom ((c :: ta) ++ r0) = some (j, ⟨r.1, r.2⟩) := h2
            obtain ⟨rzA, haz, hzA⟩ :=
              parseAtom_local (c :: ta) r0 s j ⟨r.1, r.2⟩ hws h4 hrr
            refine ⟨rzA, ?_, hzA⟩
            rw [parseValue.eq_3, if_neg hc1, if_neg hc2, if_neg hc3]
            exact haz
    · intro acc a r0 hle j r s h hws hrr m hm
      obtain ⟨cs0, hcs0, hne0, hlast0⟩ :=
        (parse_decomp (n + 1)).2.1 acc _ hle j r h
      have hx : a ++ r0 = (cs0 ++ s) ++ r0 := by
        rw [List.append_assoc, ← hrr]
        exact hcs0
      have ha : a = cs0 ++ s := List.append_cancel_right hx
      have hane : a ≠ [] := by
        rw [ha]
        intro h0
        rcases List.append_eq_nil.mp h0 with ⟨h1, _⟩
        exact hne0 h1
      cases a with
      | nil => exact absurd rfl hane
      | cons c0 ta =>
      cases m with
      | zero => simp at hm
      | succ m =>
      have h2 : parsePairs (n + 1) acc (c0 :: (ta ++ r0)) hle
          = some (j, ⟨r.1, r.2⟩) := h
      rw [parsePairs.eq_2] at h2
      split at h2
      · rename_i hq0
        have hc0q : c0 = '"' := headIs_eq '"' c0 _ hq0
        subst hc0q
        split at h2
        · cases h2
        · rename_i k r1 hsr
          obtain ⟨csK, hcsK, hneK, hlastK⟩ :=
            parseStringRest_decomp [] (ta ++ r0) k ⟨r1.1, r1.2⟩ hsr
          split at h2
          · rename_i hcq
            split at h2
            · cases h2
            · rename_i v r3 hv
              obtain ⟨csV, hcsVeq, hneV, hheadV, hlastV⟩ :=
                (parse_decomp n).1 _ _ v r3 hv
              split at h2
              · rename_i hcomma
                rcases Option.map_eq_some'.mp h2 with ⟨⟨j1, rr1⟩, hp, heq⟩
                have hj1 : j1 = j := congrArg Prod.fst heq
                have hvalR : rr1.1 = s ++ r0 :=
                  (congrArg (fun q => q.2.1) heq).trans hrr
                obtain ⟨csR, hcsReq, hneR, hlastR⟩ :=
                  (parse_decomp n).2.1 (objInsert acc k v) _ _ j1 rr1 hp
                have hsfx3 : r0 <:+ r3.1 := by
                  have s1 : r0 <:+ rr1.1 := ⟨s, hvalR.symm⟩
                  have s2 : rr1.1 <:+
                      ((r3.1.dropWhile isJsonWs).tail).dropWhile isJsonWs :=
                    ⟨csR, hcsReq.symm⟩
                  have s3 : ((r3.1.dropWhile isJsonWs).tail).dropWhile isJsonWs
                      <:+ (r3.1.dropWhile isJsonWs).tail :=
                    List.dropWhile_suffix _
                  have s4 : (r3.1.dropWhile isJsonWs).tail
                      <:+ r3.1.dropWhile isJsonWs := List.tail_suffix _
                  have s5 : r3.1.dropWhile isJsonWs <:+ r3.1 :=
                    List.dropWhile_suffix _
                  exact s1.trans (s2.trans (s3.trans (s4.trans s5)))
                obtain ⟨S3, hS3r⟩ := hsfx3
                have hr3f : r3.1 = S3 ++ r0 := hS3r.symm
                have hsfx1 : r0 <:+ r1.1 := by
                  have s1 : r0 <:+ r3.1 := ⟨S3, hS3r⟩
                  have s2 : r3.1 <:+
                      ((r1.1.dropWhile isJsonWs).tail).dropWhile isJsonWs :=
                    ⟨csV, hcsVeq.symm⟩
                  have s3 : ((r1.1.dropWhile isJsonWs).tail).dropWhile isJsonWs
                      <:+ (r1.1.dropWhile isJsonWs).tail :=
                    List.dropWhile_suffix _
                  have s4 : (r1.1.dropWhile isJsonWs).tail
                      <:+ r1.1.dropWhile isJsonWs := List.tail_suffix _
                  have s5 : r1.1.dropWhile isJsonWs <:+ r1.1 :=
                    List.dropWhile_suffix _
                  exact s1.trans (s2.trans (s3.trans (s4.trans s5)))
                obtain ⟨S1, hS1r⟩ := hsfx1
                by_cases hS1e : S1.dropWhile isJsonWs = []
                · have hd0 : r1.1.dropWhile isJsonWs = [] := by
                    rw [← hS1r, List.dropWhile_append,
                      if_pos (by simp [hS1e]), dropWhile_all_nil _ _ hws]
                  rw [hd0] at hcq
                  exact absurd hcq (by decide)
                · have hd1 : r1.1.dropWhile isJsonWs
                      = S1.dropWhile isJsonWs ++ r0 := by
                    rw [← hS1r]
                    exact dropWhile_append_left _ _ _ hS1e
                  rw [hd1, headIs_append_left _ _ _ hS1e] at hcq
                  obtain ⟨T1, hT1⟩ : ∃ T1, S1.dropWhile isJsonWs = ':' :: T1 :=
                    ⟨_, headIs_decomp ':' _ hcq⟩
                  have hX2e : ((r1.1.dropWhile isJsonWs).tail).dropWhile isJsonWs
                      = (T1 ++ r0).dropWhile isJsonWs := by
                    rw [hd1, hT1]
                    rfl
                  by_cases hT1e : T1.dropWhile isJsonWs = []
                  · have hT0 : ((r1.1.dropWhile isJsonWs).tail).dropWhile isJsonWs
                        = [] := by
                      rw [hX2e, List.dropWhile_append,
                        if_pos (by simp [hT1e]), dropWhile_all_nil _ _ hws]
                    have h5 := r3.2
                    have h6 : (((r1.1.dropWhile isJsonWs).tail).dropWhile
                        isJsonWs).length = 0 := by
                      rw [hT0]
                      rfl
                    exact absurd h5 (by omega)
                  · have hX2f : ((r1.1.dropWhile isJsonWs).tail).dropWhile isJsonWs
                        = T1.dropWhile isJsonWs ++ r0 := by
                      rw [hX2e]
                      exact dropWhile_append_left _ _ _ hT1e
                    have hX2len : (T1.dropWhile isJsonWs ++ r0).length
                        = (((r1.1.dropWhile isJsonWs).tail).dropWhile
                          isJsonWs).length := by
                      rw [hX2f]
                    have hq1 := (List.dropWhile_suffix isJsonWs
                      (l := (r1.1.dropWhile isJsonWs).tail)).length_le
                    have hq2 := List.length_tail (r1.1.dropWhile isJsonWs)
                    have hq3 := (List.dropWhile_suffix isJsonWs
                      (l := r1.1)).length_le
                    have hq4 : r1.1.length < (ta ++ r0).length := r1.2
                    have hq5 := hle
                    simp only [List.cons_append, List.length_cons] at hq5
                    have hleV : (T1.dropWhile isJsonWs ++ r0).length ≤ n := by
                      omega
                    obtain ⟨pfv, hv2⟩ :=
                      parseValue_cast n _ _ hX2f _ hleV v r3.1 ⟨r3.2, hv⟩
                    have hw1 := (List.dropWhile_suffix isJsonWs
                      (l := T1)).length_le
                    have hw2 : (S1.dropWhile isJsonWs).length = T1.length + 1 := by
                      rw [hT1]
                      rfl
                    have hw3 := (List.dropWhile_suffix isJsonWs
                      (l := S1)).length_le
                    have hw4 : ta.length = (csK ++ S1).length := by
                      rw [show ta = csK ++ S1 from List.append_cancel_right (by
                        rw [hcsK, ← hS1r, ← List.append_assoc] :
                        ta ++ r0 = (csK ++ S1) ++ r0)]
                    have hw5 := hm
                    simp only [List.length_cons] at hw5
                    simp only [List.length_append] at hw4
                    have hmV : (T1.dropWhile isJsonWs).length ≤ m := by
                      omega
                    obtain ⟨rzV, hvz, hzV⟩ :=
                      ihV (T1.dropWhile isJsonWs) r0 hleV v ⟨r3.1, pfv⟩ S3
                        hv2 hws hr3f m hmV
                    obtain ⟨rzVv, rzVpf⟩ := rzV
                    have hzV2 : S3 = rzVv := hzV.symm
                    subst hzV2
                    by_cases hS3e : S3.dropWhile isJsonWs = []
                    · have hd0 : r3.1.dropWhile isJsonWs = [] := by
                        rw [hr3f, List.dropWhile_append,
                          if_pos (by simp [hS3e]), dropWhile_all_nil _ _ hws]
                      rw [hd0] at hcomma
                      exact absurd hcomma (by decide)
                    · have hd3 : r3.1.dropWhile isJsonWs
                          = S3.dropWhile isJsonWs ++ r0 := by
                        rw [hr3f]
                        exact dropWhile_append_left _ _ _ hS3e
                      rw [hd3, headIs_append_left _ _ _ hS3e] at hcomma
                      obtain ⟨T3, hT3⟩ : ∃ T3, S3.dropWhile isJsonWs
                          = ',' :: T3 := ⟨_, headIs_decomp ',' _ hcomma⟩
                      have hX4e : ((r3.1.dropWhile isJsonWs).tail).dropWhile
                          isJsonWs = (T3 ++ r0).dropWhile isJsonWs := by
                        rw [hd3, hT3]
                        rfl
                      by_cases hT3e : T3.dropWhile isJsonWs = []
                      · have hT0 : ((r3.1.dropWhile isJsonWs).tail).dropWhile
                            isJsonWs = [] := by
                          rw [hX4e, List.dropWhile_append,
                            if_pos (by simp [hT3e]), dropWhile_all_nil _ _ hws]
                        have h5 := rr1.2
                        have h6 : (((r3.1.dropWhile isJsonWs).tail).dropWhile
                            isJsonWs).length = 0 := by
                          rw [hT0]
                          rfl
                        exact absurd h5 (by omega)
                      · have hX4f : ((r3.1.dropWhile isJsonWs).tail).dropWhile
                            isJsonWs = T3.dropWhile isJsonWs ++ r0 := by
                          rw [hX4e]
                          exact dropWhile_append_left _ _ _ hT3e
                        have hX4len : (T3.dropWhile isJsonWs ++ r0).length
                            = (((r3.1.dropWhile isJsonWs).tail).dropWhile
                              isJsonWs).length := by
                          rw [hX4f]
                        have hz1 := (List.dropWhile_suffix isJsonWs
                          (l := (r3.1.dropWhile isJsonWs).tail)).length_le
                        have hz2 := List.length_tail (r3.1.dropWhile isJsonWs)
                        have hz3 := (List.dropWhile_suffix isJsonWs
                          (l := r3.1)).length_le
                        have hz4 := r3.2
                        have hleP : (T3.dropWhile isJsonWs ++ r0).length ≤ n := by
                          omega
                        obtain ⟨pfp, hp2⟩ :=
                          parsePairs_cast n (objInsert acc k v) _ _ hX4f _
                            hleP j1 rr1.1 ⟨rr1.2, hp⟩
                        have hy1 := (List.dropWhile_suffix isJsonWs
                          (l := T3)).length_le
                        have hy2 : (S3.dropWhile isJsonWs).length
                            = T3.length + 1 := by
                          rw [hT3]
                          rfl
                        have hy3 := (List.dropWhile_suffix isJsonWs
                          (l := S3)).length_le
                        have hy4 := rzVpf
                        have hmP : (T3.dropWhile isJsonWs).length ≤ m := by
                          omega
                        obtain ⟨rzR, hpz, hzR⟩ :=
                          ihP (objInsert acc k v) (T3.dropWhile isJsonWs) r0
                            hleP j1 ⟨rr1.1, pfp⟩ s hp2 hws hvalR m hmP
                        obtain ⟨rzRv, rzRpf⟩ := rzR
                        have hzR2 : s = rzRv := hzR.symm
                        subst hzR2
                        have hta2 : ta = csK ++ S1 :=
                          List.append_cancel_right (by
                            rw [hcsK, ← hS1r, ← List.append_assoc] :
                            ta ++ r0 = (csK ++ S1) ++ r0)
                        obtain ⟨rzK, hKz0, hKrem⟩ :=
                          parseStringRest_local [] (ta ++ r0) k ⟨r1.1, r1.2⟩
                            csK S1 hsr hcsK
                        obtain ⟨rzKv, rzKpf⟩ := rzK
                        have hKr2 : S1 = rzKv := hKrem.symm
                        subst hKr2
                        have htg1 : ((S1.dropWhile isJsonWs).tail).dropWhile
                            isJsonWs = T1.dropWhile isJsonWs := by
                          rw [hT1]
                          rfl
                        have hmVt : (((S1.dropWhile isJsonWs).tail).dropWhile
                            isJsonWs).length ≤ m := by
                          rw [htg1]
                          exact hmV
                        obtain ⟨pfv2, hvz2⟩ :=
                          parseValue_cast m _ _ htg1.symm hmV hmVt v S3
                            ⟨rzVpf, hvz⟩
                        have htg3 : ((S3.dropWhile isJsonWs).tail).dropWhile
                            isJsonWs = T3.dropWhile isJsonWs := by
                          rw [hT3]
                          rfl
                        have hmPt : (((S3.dropWhile isJsonWs).tail).dropWhile
                            isJsonWs).length ≤ m := by
                          rw [htg3]
                          exact hmP
                        obtain ⟨pfp2, hpz2⟩ :=
                          parsePairs_cast m (objInsert acc k v) _ _ htg3.symm
                            hmP hmPt j1 s ⟨rzRpf, hpz⟩
                        have hlt : ('"' :: (csK ++ S1) : List Char).length
                            ≤ m + 1 := by
                          rw [show ('"' :: (csK ++ S1) : List Char)
                            = '"' :: ta from by rw [hta2]]
                          exact hm
                        have spf : s.length
                            < ('"' :: (csK ++ S1) : List Char).length := by
                          simp only [List.length_cons, List.length_append]
                          omega
                        have htarget : parsePairs (m + 1) acc
                            ('"' :: (csK ++ S1)) hlt = some (j, ⟨s, spf⟩) := by
                          rw [parsePairs.eq_2,
                            dif_pos (show headIs '"' ('"' :: (csK ++ S1)) = true
                              from by simp [headIs])]
                          have hKz2 : parseStringRest []
                              (('"' :: (csK ++ S1) : List Char)).tail
                              = some (k, ⟨S1, rzKpf⟩) := hKz0
                          simp only [hKz2]
                          rw [dif_pos hcq]
                          simp only [hvz2]
                          rw [dif_pos hcomma]
                          simp only [hpz2, Option.map_some', ← hj1]
                        obtain ⟨pfF, hF⟩ :=
                          parsePairs_cast (m + 1) acc ('"' :: (csK ++ S1))
                            ('"' :: ta) (by rw [hta2]) hlt hm j s
                            ⟨spf, htarget⟩
                        exact ⟨⟨s, pfF⟩, hF, rfl⟩
              · rename_i hcm0
                split at h2
                · rename_i hclose
                  injection h2 with h3
                  rw [Prod.mk.injEq] at h3
                  have hval : (r3.1.dropWhile isJsonWs).tail = s ++ r0 :=
                    (congrArg Subtype.val h3.2).trans hrr
                  have hsfx3 : r0 <:+ r3.1 := by
                    have s1 : r0 <:+ (r3.1.dropWhile isJsonWs).tail :=
                      ⟨s, hval.symm⟩
                    have s4 : (r3.1.dropWhile isJsonWs).tail
                        <:+ r3.1.dropWhile isJsonWs := List.tail_suffix _
                    have s5 : r3.1.dropWhile isJsonWs <:+ r3.1 :=
                      List.dropWhile_suffix _
                    exact s1.trans (s4.trans s5)
                  obtain ⟨S3, hS3r⟩ := hsfx3
                  have hr3f : r3.1 = S3 ++ r0 := hS3r.symm
                  have hsfx1 : r0 <:+ r1.1 := by
                    have s1 : r0 <:+ r3.1 := ⟨S3, hS3r⟩
                    have s2 : r3.1 <:+
                        ((r1.1.dropWhile isJsonWs).tail).dropWhile isJsonWs :=
                      ⟨csV, hcsVeq.symm⟩
                    have s3 : ((r1.1.dropWhile isJsonWs).tail).dropWhile isJsonWs
                        <:+ (r1.1.dropWhile isJsonWs).tail :=
                      List.dropWhile_suffix _
                    have s4 : (r1.1.dropWhile isJsonWs).tail
                        <:+ r1.1.dropWhile isJsonWs := List.tail_suffix _
                    have s5 : r1.1.dropWhile isJsonWs <:+ r1.1 :=
                      List.dropWhile_suffix _
                    exact s1.trans (s2.trans (s3.trans (s4.trans s5)))
                  obtain ⟨S1, hS1r⟩ := hsfx1
                  by_cases hS1e : S1.dropWhile isJsonWs = []
                  · have hd0 : r1.1.dropWhile isJsonWs = [] := by
                      rw [← hS1r, List.dropWhile_append,
                        if_pos (by simp [hS1e]), dropWhile_all_nil _ _ hws]
                    rw [hd0] at hcq
                    exact absurd hcq (by decide)
                  · have hd1 : r1.1.dropWhile isJsonWs
                        = S1.dropWhile isJsonWs ++ r0 := by
                      rw [← hS1r]
                      exact dropWhile_append_left _ _ _ hS1e
                    rw [hd1, headIs_append_left _ _ _ hS1e] at hcq
                    obtain ⟨T1, hT1⟩ : ∃ T1, S1.dropWhile isJsonWs
                        = ':' :: T1 := ⟨_, headIs_decomp ':' _ hcq⟩
                    have hX2e : ((r1.1.dropWhile isJsonWs).tail).dropWhile
                        isJsonWs = (T1 ++ r0).dropWhile isJsonWs := by
                      rw [hd1, hT1]
                      rfl
                    by_cases hT1e : T1.dropWhile isJsonWs = []
                    · have hT0 : ((r1.1.dropWhile isJsonWs).tail).dropWhile
                          isJsonWs = [] := by
                        rw [hX2e, List.dropWhile_append,
                          if_pos (by simp [hT1e]), dropWhile_all_nil _ _ hws]
                      have h5 := r3.2
                      have h6 : (((r1.1.dropWhile isJsonWs).tail).dropWhile
                          isJsonWs).length = 0 := by
                        rw [hT0]
                        rfl
                      exact absurd h5 (by omega)
                    · have hX2f : ((r1.1.dropWhile isJsonWs).tail).dropWhile
                          isJsonWs = T1.dropWhile isJsonWs ++ r0 := by
                        rw [hX2e]
                        exact dropWhile_append_left _ _ _ hT1e
                      have hX2len : (T1.dropWhile isJsonWs ++ r0).length
                          = (((r1.1.dropWhile isJsonWs).tail).dropWhile
                            isJsonWs).length := by
                        rw [hX2f]
                      have hq1 := (List.dropWhile_suffix isJsonWs
                        (l := (r1.1.dropWhile isJsonWs).tail)).length_le
                      have hq2 := List.length_tail (r1.1.dropWhile isJsonWs)
                      have hq3 := (List.dropWhile_suffix isJsonWs
                        (l := r1.1)).length_le
                      have hq4 : r1.1.length < (ta ++ r0).length := r1.2
                      have hq5 := hle
                      simp only [List.cons_append, List.length_cons] at hq5
                      have hleV : (T1.dropWhile isJsonWs ++ r0).length ≤ n := by
                        omega
                      obtain ⟨pfv, hv2⟩ :=
                        parseValue_cast n _ _ hX2f _ hleV v r3.1 ⟨r3.2, hv⟩
                      have hw1 := (List.dropWhile_suffix isJsonWs
                        (l := T1)).length_le
                      have hw2 : (S1.dropWhile isJsonWs).length
                          = T1.length + 1 := by
                        rw [hT1]
                        rfl
                      have hw3 := (List.dropWhile_suffix isJsonWs
                        (l := S1)).length_le
                      have hw4 : ta.length = (csK ++ S1).length := by
                        rw [show ta = csK ++ S1 from List.append_cancel_right (by
                          rw [hcsK, ← hS1r, ← List.append_assoc] :
                          ta ++ r0 = (csK ++ S1) ++ r0)]
                      have hw5 := hm
                      simp only [List.length_cons] at hw5
                      simp only [List.length_append] at hw4
                      have hmV : (T1.dropWhile isJsonWs).length ≤ m := by
                        omega
                      obtain ⟨rzV, hvz, hzV⟩ :=
                        ihV (T1.dropWhile isJsonWs) r0 hleV v ⟨r3.1, pfv⟩ S3
                          hv2 hws hr3f m hmV
                      obtain ⟨rzVv, rzVpf⟩ := rzV
                      have hzV2 : S3 = rzVv := hzV.symm
                      subst hzV2
                      by_cases hS3e : S3.dropWhile isJsonWs = []
                      · have hd0 : r3.1.dropWhile isJsonWs = [] := by
                          rw [hr3f, List.dropWhile_append,
                            if_pos (by simp [hS3e]), dropWhile_all_nil _ _ hws]
                        rw [hd0] at hclose
                        exact absurd hclose (by decide)
                      · have hd3 : r3.1.dropWhile isJsonWs
                            = S3.dropWhile isJsonWs ++ r0 := by
                          rw [hr3f]
                          exact dropWhile_append_left _ _ _ hS3e
                        rw [hd3, headIs_append_left _ _ _ hS3e] at hclose hcm0
                        obtain ⟨T3, hT3⟩ : ∃ T3, S3.dropWhile isJsonWs
                            = '}' :: T3 := ⟨_, headIs_decomp '}' _ hclose⟩
                        have hval2 : T3 ++ r0 = s ++ r0 := by
                          rw [← hval, hd3, hT3]
                          rfl
                        have hTs : T3 = s := List.append_cancel_right hval2
                        have hTtail : (S3.dropWhile isJsonWs).tail = s := by
                          rw [hT3]
                          exact hTs
                        have hta2 : ta = csK ++ S1 :=
                          List.append_cancel_right (by
                            rw [hcsK, ← hS1r, ← List.append_assoc] :
                            ta ++ r0 = (csK ++ S1) ++ r0)
                        obtain ⟨rzK, hKz0, hKrem⟩ :=
                          parseStringRest_local [] (ta ++ r0) k ⟨r1.1, r1.2⟩
                            csK S1 hsr hcsK
                        obtain ⟨rzKv, rzKpf⟩ := rzK
                        have hKr2 : S1 = rzKv := hKrem.symm
                        subst hKr2
                        have htg1 : ((S1.dropWhile isJsonWs).tail).dropWhile
                            isJsonWs = T1.dropWhile isJsonWs := by
                          rw [hT1]
                          rfl
                        have hmVt : (((S1.dropWhile isJsonWs).tail).dropWhile
                            isJsonWs).length ≤ m := by
                          rw [htg1]
                          exact hmV
                        obtain ⟨pfv2, hvz2⟩ :=
                          parseValue_cast m _ _ htg1.symm hmV hmVt v S3
                            ⟨rzVpf, hvz⟩
                        have hlt : ('"' :: (csK ++ S1) : List Char).length
                            ≤ m + 1 := by
                          rw [show ('"' :: (csK ++ S1) : List Char)
                            = '"' :: ta from by rw [hta2]]
                          exact hm
                        have hy2 : (S3.dropWhile isJsonWs).length
                            = T3.length + 1 := by
                          rw [hT3]
                          rfl
                        have hy3 := (List.dropWhile_suffix isJsonWs
                          (l := S3)).length_le
                        have hy5 := List.length_tail (S3.dropWhile isJsonWs)
                        have tpf : ((S3.dropWhile isJsonWs).tail).length
                            < ('"' :: (csK ++ S1) : List Char).length := by
                          simp only [List.length_cons, List.length_append]
                          omega
                        have htarget : parsePairs (m + 1) acc
                            ('"' :: (csK ++ S1)) hlt
                            = some (j, ⟨(S3.dropWhile isJsonWs).tail, tpf⟩) := by
                          rw [parsePairs.eq_2,
                            dif_pos (show headIs '"' ('"' :: (csK ++ S1)) = true
                              from by simp [headIs])]
                          have hKz2 : parseStringRest []
                              (('"' :: (csK ++ S1) : List Char)).tail
                              = some (k, ⟨S1, rzKpf⟩) := hKz0
                          simp only [hKz2]
                          rw [dif_pos hcq]
                          simp only [hvz2]
                          rw [dif_neg hcm0, dif_pos hclose, ← h3.1]
                        obtain ⟨pfF, hF⟩ :=
                          parsePairs_cast (m + 1) acc ('"' :: (csK ++ S1))
                            ('"' :: ta) (by rw [hta2]) hlt hm j
                            ((S3.dropWhile isJsonWs).tail) ⟨tpf, htarget⟩
                        exact ⟨⟨(S3.dropWhile isJsonWs).tail, pfF⟩, hF, hTtail⟩
                · cases h2
          · cases h2
      · cases h2
    · intro acc a r0 hle j r s h hws hrr m hm
      obtain ⟨cs0, hcs0, hne0, hlast0⟩ :=
        (parse_decomp (n + 1)).2.2 acc _ hle j r h
      have hx : a ++ r0 = (cs0 ++ s) ++ r0 := by
        rw [List.append_assoc, ← hrr]
        exact hcs0
      have ha : a = cs0 ++ s := List.append_cancel_right hx
      have hane : a ≠ [] := by
        rw [ha]
        intro h0
        rcases List.append_eq_nil.mp h0 with ⟨h1, _⟩
        exact hne0 h1
      cases m with
      | zero =>
        exact absurd (List.eq_nil_of_length_eq_zero (Nat.le_zero.mp hm)) hane
      | succ m =>
      rw [parseElemsRest.eq_2] at h
      split at h
      · rename_i hcomma
        split at h
        · cases h
        · rename_i v r1 hv
          rcases Option.map_eq_some'.mp h with ⟨⟨j1, rr1⟩, hp, heq⟩
          have hj1 : j1 = j := congrArg Prod.fst heq
          have hvalR : rr1.1 = s ++ r0 :=
            (congrArg (fun q => q.2.1) heq).trans hrr
          obtain ⟨csE, hcsEeq, hneE, hlastE⟩ :=
            (parse_decomp n).2.2 (acc ++ [v]) _ _ j1 rr1 hp
          have hr1f : r1.1 = (csE ++ s) ++ r0 := by
            rw [hcsEeq, hvalR, List.append_assoc]
          by_cases hae : a.dropWhile isJsonWs = []
          · have hdwa : (a ++ r0).dropWhile isJsonWs = [] := by
              rw [List.dropWhile_append, if_pos (by simp [hae]),
                dropWhile_all_nil _ _ hws]
            rw [hdwa] at hcomma
            exact absurd hcomma (by decide)
          · have hdwa : (a ++ r0).dropWhile isJsonWs
                = a.dropWhile isJsonWs ++ r0 :=
              dropWhile_append_left _ _ _ hae
            rw [hdwa, headIs_append_left _ _ _ hae] at hcomma
            obtain ⟨Ta, hTa⟩ : ∃ Ta, a.dropWhile isJsonWs = ',' :: Ta :=
              ⟨_, headIs_decomp ',' _ hcomma⟩
            have hX2e : (((a ++ r0).dropWhile isJsonWs).tail).dropWhile isJsonWs
                = (Ta ++ r0).dropWhile isJsonWs := by
              rw [hdwa, hTa]
              rfl
            by_cases hTae : Ta.dropWhile isJsonWs = []
            · have hT0 : (((a ++ r0).dropWhile isJsonWs).tail).dropWhile isJsonWs
                  = [] := by
                rw [hX2e, List.dropWhile_append, if_pos (by simp [hTae]),
                  dropWhile_all_nil _ _ hws]
              have h5 := r1.2
              have h6 : ((((a ++ r0).dropWhile isJsonWs).tail).dropWhile
                  isJsonWs).length = 0 := by
                rw [hT0]
                rfl
              exact absurd h5 (by omega)
            · have hX2f : (((a ++ r0).dropWhile isJsonWs).tail).dropWhile isJsonWs
                  = Ta.dropWhile isJsonWs ++ r0 := by
                rw [hX2e]
                exact dropWhile_append_left _ _ _ hTae
              have hX2len : (Ta.dropWhile isJsonWs ++ r0).length
                  = ((((a ++ r0).dropWhile isJsonWs).tail).dropWhile
                    isJsonWs).length := by
                rw [hX2f]
              have hq1 := (List.dropWhile_suffix isJsonWs
                (l := ((a ++ r0).dropWhile isJsonWs).tail)).length_le
              have hq2 := List.length_tail ((a ++ r0).dropWhile isJsonWs)
              have hq3 := (List.dropWhile_suffix isJsonWs
                (l := a ++ r0)).length_le
              have hq4 : ((a ++ r0).dropWhile isJsonWs).length
                  = (Ta.length + 1) + r0.length := by
                rw [hdwa, hTa]
                simp only [List.cons_append, List.length_cons,
                  List.length_append]
                omega
              have hq5 := hle
              simp only [List.length_append] at hq3 hq5
              have hleV : (Ta.dropWhile isJsonWs ++ r0).length ≤ n := by
                omega
              obtain ⟨pfv, hv2⟩ :=
                parseValue_cast n _ _ hX2f _ hleV v r1.1 ⟨r1.2, hv⟩
              have hw1 := (List.dropWhile_suffix isJsonWs (l := Ta)).length_le
              have hw2 : (a.dropWhile isJsonWs).length = Ta.length + 1 := by
                rw [hTa]
                rfl
              have hw3 := (List.dropWhile_suffix isJsonWs (l := a)).length_le
              have hmV : (Ta.dropWhile isJsonWs).length ≤ m := by
                omega
              obtain ⟨rzV, hvz, hzV⟩ :=
                ihV (Ta.dropWhile isJsonWs) r0 hleV v ⟨r1.1, pfv⟩ (csE ++ s)
                  hv2 hws hr1f m hmV
              obtain ⟨rzVv, rzVpf⟩ := rzV
              have hzV2 : rzVv = csE ++ s := hzV
              subst hzV2
              have hleE : ((csE ++ s) ++ r0).length ≤ n := by
                rw [← hr1f]
                have h5 := r1.2
                omega
              obtain ⟨pfe, hp2⟩ :=
                parseElemsRest_cast n (acc ++ [v]) _ _ hr1f _ hleE j1 rr1.1
                  ⟨rr1.2, hp⟩
              have hmE : (csE ++ s).length ≤ m := by
                have h5 := rzVpf
                omega
              obtain ⟨rzE, hez, hzE⟩ :=
                ihE (acc ++ [v]) (csE ++ s) r0 hleE j1 ⟨rr1.1, pfe⟩ s hp2 hws
                  hvalR m hmE
              refine ⟨⟨rzE.1, ?_⟩, ?_, hzE⟩
              · have h5 := rzE.2
                have h6 := rzVpf
                simp only [List.length_append] at h5 h6 ⊢
                omega
              · rw [parseElemsRest.eq_2, dif_pos hcomma]
                have htg1 : ((a.dropWhile isJsonWs).tail).dropWhile isJsonWs
                    = Ta.dropWhile isJsonWs := by
                  rw [hTa]
                  rfl
                have hmVt : (((a.dropWhile isJsonWs).tail).dropWhile
                    isJsonWs).length ≤ m := by
                  rw [htg1]
                  exact hmV
                obtain ⟨pfv2, hvz2⟩ :=
                  parseValue_cast m _ _ htg1.symm hmV hmVt v (csE ++ s)
                    ⟨rzVpf, hvz⟩
                simp only [hvz2, hez, Option.map_some', ← hj1]
      · rename_i hcm0
        split at h
        · rename_i hclose
          injection h with h3
          rw [Prod.mk.injEq] at h3
          have hval : ((a ++ r0).dropWhile isJsonWs).tail = s ++ r0 :=
            (congrArg Subtype.val h3.2).trans hrr
          by_cases hae : a.dropWhile isJsonWs = []
          · have hdwa : (a ++ r0).dropWhile isJsonWs = [] := by
              rw [List.dropWhile_append, if_pos (by simp [hae]),
                dropWhile_all_nil _ _ hws]
            rw [hdwa] at hclose
            exact absurd hclose (by decide)
          · have hdwa : (a ++ r0).dropWhile isJsonWs
                = a.dropWhile isJsonWs ++ r0 :=
              dropWhile_append_left _ _ _ hae
            rw [hdwa, headIs_append_left _ _ _ hae] at hclose hcm0
            obtain ⟨Ta, hTa⟩ : ∃ Ta, a.dropWhile isJsonWs = ']' :: Ta :=
              ⟨_, headIs_decomp ']' _ hclose⟩
            have hval2 : Ta ++ r0 = s ++ r0 := by
              rw [← hval, hdwa, hTa]
              rfl
            have hTs : Ta = s := List.append_cancel_right hval2
            have hTtail : (a.dropWhile isJsonWs).tail = s := by
              rw [hTa]
              exact hTs
            refine ⟨⟨(a.dropWhile isJsonWs).tail, ?_⟩, ?_, hTtail⟩
            · have h5 := (List.dropWhile_suffix isJsonWs (l := a)).length_le
              have h6 := List.length_tail (a.dropWhile isJsonWs)
              have h7 : 0 < a.length := List.length_pos.mpr hane
              have h8 : (a.dropWhile isJsonWs).length = Ta.length + 1 := by
                rw [hTa]
                rfl
              omega
            · rw [parseElemsRest.eq_2, dif_neg hcm0, dif_pos hclose, ← h3.1]
        · cases h

/-- Truncation of the `takeWhile`/`dropWhile` split to Python whitespace:
`str.strip()` on a text that parses as one JSON value (with only JSON
whitespace after it) yields exactly the consumed core of the parse. -/
theorem dropWhile_stop (p : Char → Bool) (cs : List Char)
    (hhead : ∀ c, cs.head? = some c → p c = false) :
    cs.dropWhile p = cs := by
  cases cs with
  | nil => rfl
  | cons c t => rw [List.dropWhile_cons, if_neg (by simp [hhead c rfl])]

theorem all_pyWs_of_all_jsonWs (l : List Char) (h : l.all isJsonWs = true) :
    l.all isPyWs = true := by
  rw [List.all_eq_true] at h ⊢
  exact fun x hx => isPyWs_of_isJsonWs x (h x hx)

theorem strip_chain (l cs rs : List Char)
    (hdw : l.dropWhile isJsonWs = cs ++ rs)
    (hne : cs ≠ [])
    (hhead : ∀ c, cs.head? = some c → isPyWs c = false)
    (hlast : ∀ c, cs.getLast? = some c → isPyWs c = false)
    (hrs : rs.all isJsonWs = true) :
    pyStripList l = cs := by
  cases cs with
  | nil => exact absurd rfl hne
  | cons c0 t0 =>
    have hc0 : isPyWs c0 = false := hhead c0 rfl
    have h1 : l.dropWhile isPyWs = (c0 :: t0) ++ rs := by
      rw [dropWhile_pyWs_eq_dropWhile_jsonWs l (by
        intro c hc
        rw [hdw] at hc
        rw [List.cons_append, List.head?_cons, Option.some.injEq] at hc
        rw [← hc]
        exact hc0), hdw]
    obtain ⟨cL, tL, hrev⟩ : ∃ cL tL, (c0 :: t0).reverse = cL :: tL := by
      cases hx : (c0 :: t0).reverse with
      | nil => exact absurd hx (by simp)
      | cons x xs => exact ⟨x, xs, rfl⟩
    have hcL : isPyWs cL = false := by
      apply hlast
      rw [← List.head?_reverse, hrev]
      rfl
    have hrsrev : ∀ x ∈ rs.reverse, isPyWs x = true := by
      intro x hx
      rw [List.mem_reverse] at hx
      exact List.all_eq_true.mp (all_pyWs_of_all_jsonWs rs hrs) x hx
    have h3 : ((l.dropWhile isPyWs).reverse).dropWhile isPyWs
        = (c0 :: t0).reverse := by
      rw [h1, List.reverse_append, dropWhile_append_all isPyWs _ _ hrsrev,
        hrev, List.dropWhile_cons, if_neg (by simp [hcL])]
    show ((l.dropWhile isPyWs).reverse.dropWhile isPyWs).reverse = c0 :: t0
    rw [h3, List.reverse_reverse]

/-- Fence-marker removal is the identity on texts with no triple backtick. -/
theorem subFences_no_triple (l : List Char) (h : hasTriple l = false) :
    subFences l = l := by
  induction l using subFences.induct <;>
    simp_all [subFences, hasTriple, startsWithTicks]

/-- Triple-backtick replacement is the identity on texts with no triple
backtick. -/
theorem replaceTicks_no_triple (l : List Char) (h : hasTriple l = false) :
    replaceTicks l = l := by
  induction l using replaceTicks.induct <;>
    simp_all [replaceTicks, hasTriple, startsWithTicks]

/-- `json.loads` succeeds with the same value on the `str.strip()` of a
text it accepts: leading whitespace stripped by `strip` would have been
skipped by the scanner, and trailing whitespace stripped by `strip` is
exactly the only material `loads` allows after the value. -/
theorem loads_pyStrip (l : List Char) (v : Json)
    (h : loadsList l = some v) :
    loadsList (pyStripList l) = some v := by
  unfold loadsList at h
  split at h
  · rename_i v1 r1 hpw
    split at h
    · rename_i hall
      injection h with hv1
      rcases Option.map_eq_some'.mp hpw with ⟨⟨v2, rr⟩, hp, heq⟩
      have hv2 : v2 = v1 := congrArg Prod.fst heq
      have hr1 : rr.1 = r1 := congrArg Prod.snd heq
      have hrall : rr.1.all isJsonWs = true := by
        rw [hr1]
        exact hall
      obtain ⟨cs, hcs, hne, hhead, hlast⟩ :=
        (parse_decomp (l.dropWhile isJsonWs).length).1 _ (le_refl _) v2 rr hp
      have hstrip : pyStripList l = cs :=
        strip_chain l cs rr.1 hcs hne hhead hlast hrall
      have hle2 : (cs ++ rr.1).length ≤ (l.dropWhile isJsonWs).length := by
        rw [← hcs]
      obtain ⟨pf2, hp2⟩ :=
        parseValue_cast (l.dropWhile isJsonWs).length _ _ hcs (le_refl _)
          hle2 v2 rr.1 ⟨rr.2, hp⟩
      obtain ⟨rz, hvz, hz0⟩ :=
        (parse_local (l.dropWhile isJsonWs).length).1 cs rr.1 hle2 v2
          ⟨rr.1, pf2⟩ [] hp2 hrall (List.nil_append rr.1).symm
          cs.length (le_refl _)
      obtain ⟨rzv, rzpf⟩ := rz
      have hz1 : rzv = [] := hz0
      subst hz1
      have hcsd : cs.dropWhile isJsonWs = cs :=
        dropWhile_stop isJsonWs cs
          (fun c hc => not_jsonWs_of_not_pyWs c (hhead c hc))
      rw [hstrip]
      unfold loadsList
      rw [hcsd]
      unfold parseValueW
      rw [hvz]
      simp [hv2, hv1]
    · cases h
  · cases h


/-- C3, counterexample: the claim fails on valid JSON whose string values
contain the code-fence marker.  On the valid object text \x7b"a": "```"\x7d,
a direct `json.loads` yields the object with "```" as the value of "a",
but the repair's fence-stripping `re.sub` deletes the backticks inside the
string literal first, so the repair returns the object with "" instead:
the two parsed structures differ. -/
theorem c3_backtick_corruption_counterexample :
    json_loads "\x7b\"a\": \"```\"\x7d"
      = some (Json.obj [("a", Json.str "```")]) ∧
    qnaRepair "\x7b\"a\": \"```\"\x7d" = Json.obj [("a", Json.str "")] ∧
    (Json.obj [("a", Json.str "")] : Json)
      ≠ Json.obj [("a", Json.str "```")] :=
  ⟨rfl, rfl, by simp⟩

/-- C3, amended: for every input string containing no triple-backtick
fence marker that is valid JSON text denoting a JSON object, the repair
procedure returns the identical parsed structure that a direct json parse
of that string produces.  (On fence-free input the `re.sub` and `.replace`
steps are the identity, and the `.strip()` only removes outer whitespace
that `json.loads` itself skips or tolerates.) -/
theorem c3_repair_identity_without_fences (raw : String)
    (ms : List (String × Json))
    (hnf : hasTriple raw.toList = false)
    (hp : json_loads raw = some (Json.obj ms)) :
    qnaRepair raw = Json.obj ms := by
  have hclean : qnaClean raw = ⟨pyStripList raw.toList⟩ := by
    unfold qnaClean
    rw [subFences_no_triple _ hnf, replaceTicks_no_triple _ hnf]
  have hl : json_loads (qnaClean raw) = some (Json.obj ms) := by
    rw [hclean]
    show loadsList (pyStripList raw.toList) = some (Json.obj ms)
    exact loads_pyStrip raw.toList (Json.obj ms) hp
  unfold qnaRepair
  rw [hl]

/-- C3 witness: the amended theorem applied at the fence-free valid object
text with surrounding whitespace. -/
theorem c3_repair_identity_without_fences_witness :
    hasTriple (" \x7b\"a\": 1\x7d " : String).toList = false ∧
    json_loads " \x7b\"a\": 1\x7d "
      = some (Json.obj [("a", Json.num "1")]) ∧
    qnaRepair " \x7b\"a\": 1\x7d " = Json.obj [("a", Json.num "1")] :=
  ⟨rfl, rfl,
    c3_repair_identity_without_fences " \x7b\"a\": 1\x7d "
      [("a", Json.num "1")] rfl rfl⟩

end AgentX
